import Mathlib

/-!
Verification of the s7webserverapi reconciliation engine.

This file gives a shallow embedding, in Lean 4, of the core client logic of
the repository (CacheStructure.ts, WriteTransaction.ts, Trie.ts, s7Client.ts)
and proves or refutes the frozen behavioural claims about it.

Modelling conventions:
* JavaScript values that can live in the mirror cache / schema are modelled by
  the nested inductive `JVal`: primitives (string / number / boolean), arrays
  (which, as in JS, carry both indexed elements — possibly holes, i.e.
  `undefined` slots — and named properties), and plain objects (ordered field
  lists, mirroring JS insertion-ordered properties).
* JS numbers are modelled by `Int`; the claims under study never depend on
  float-specific behaviour.
* `undefined` is modelled by `Option.none` at the use sites where the source
  can produce it (array holes, lookup misses).
* Thrown JS exceptions are modelled by `Except String`.
* Dotted keys are split on '.' at the character level; a segment is parsed as
  a numeric index exactly when it consists of decimal digits (for the empty
  segment JS's `Number("") = 0` is mirrored).  Exotic numeric spellings such
  as "1e2" (which `Number` also accepts) are modelled as string segments; no
  claim and no concrete input below uses such a segment.
-/

namespace S7

/-- JS primitive values occurring in the cache (string / number / boolean). -/
inductive JPrim where
  | jstr (s : String)
  | jint (n : Int)
  | jbool (b : Bool)
deriving DecidableEq, Repr

/-- JS values stored in the mirror cache and the schema.  An `arr` carries
both the indexed elements (with `none` for `undefined` holes) and, as in JS,
possibly named properties; an `obj` is an insertion-ordered field list. -/
inductive JVal where
  | prim (p : JPrim)
  | arr (elems : List (Option JVal)) (fields : List (String × JVal))
  | obj (fields : List (String × JVal))
deriving Repr

/-- A parsed key segment: `parseFlattenedKey` turns each dot-separated piece
into either a numeric index or a string member name. -/
inductive Seg where
  | num (n : Nat)
  | str (s : String)
deriving DecidableEq, Repr

/-- Split a character list on '.', mirroring JS `String.prototype.split(".")`. -/
def splitDotAux : List Char → List Char → List (List Char)
  | [], acc => [acc.reverse]
  | c :: rest, acc =>
    if c = '.' then acc.reverse :: splitDotAux rest []
    else splitDotAux rest (c :: acc)

/-- `key.split(".")` at the string level. -/
def splitDotS (s : String) : List String :=
  (splitDotAux s.data []).map (fun cs => String.mk cs)

/-- Decimal digits to a natural number. -/
def digitsToNat : List Char → Nat → Nat
  | [], acc => acc
  | c :: rest, acc => digitsToNat rest (acc * 10 + (c.toNat - 48))

/-- Does this segment parse as a number under JS `Number(...)`?  Modelled for
canonical decimal segments: all-digit strings (and the empty string, for
which `Number("") = 0`). -/
def segIsNumeric (s : String) : Bool :=
  s.data.all (fun c => c.isDigit)

/-- `isNaN(Number(key)) ? key : Number(key)` for one segment. -/
def parseSeg (s : String) : Seg :=
  if segIsNumeric s then .num (digitsToNat s.data 0) else .str s

/-- `CacheStructure.parseFlattenedKey`: split the flattened key on '.' and
convert numeric segments to numbers. -/
def parseFlattenedKey (key : String) : List Seg :=
  (splitDotS key).map parseSeg

/-- Ordered association-list lookup (JS property read by name). -/
def lookupField : List (String × JVal) → String → Option JVal
  | [], _ => none
  | (k, v) :: rest, s => if k = s then some v else lookupField rest s

/-- Update a named property in place if present, else append it (JS
assignment semantics for object properties: updates keep insertion order,
new properties go last). -/
def upsertField : List (String × JVal) → String → JVal → List (String × JVal)
  | [], s, v => [(s, v)]
  | (k, w) :: rest, s, v =>
    if k = s then (k, v) :: rest else (k, w) :: upsertField rest s v

/-- JS assignment `a[n] = v` on an array: set in place if within bounds,
else extend with `undefined` holes up to index `n`. -/
def setIdx : List (Option JVal) → Nat → JVal → List (Option JVal)
  | [], 0, v => [some v]
  | [], n + 1, v => none :: setIdx [] n v
  | _ :: rest, 0, v => some v :: rest
  | e :: rest, n + 1, v => e :: setIdx rest n v

/-- JS read `es[n]` on an array's element list (`undefined` for holes and
out-of-range indices). -/
def holeGet : List (Option JVal) → Nat → Option JVal
  | [], _ => none
  | e :: _, 0 => e
  | _ :: rest, n + 1 => holeGet rest n

/-- `Array.isArray(v)`. -/
def isArrayJ : JVal → Bool
  | .arr _ _ => true
  | _ => false

/-- `typeof v === "object"` (true for JS arrays and plain objects; our model
has no `null`). -/
def isObjectTy : JVal → Bool
  | .prim _ => false
  | _ => true

/-- The JS `in` operator `key in current`: property-existence check.  Throws
a `TypeError` when `current` is a primitive.  On arrays, a numeric key is
present iff the index is in range and not a hole; numeric keys on plain
objects are coerced to their decimal string. -/
def jsHasProp : JVal → Seg → Except String Bool
  | .prim _, _ => .error "TypeError: cannot use in operator on a primitive"
  | .arr es _, .num n => .ok (holeGet es n).isSome
  | .arr _ fs, .str s => .ok (lookupField fs s).isSome
  | .obj fs, .num n => .ok (lookupField fs (toString n)).isSome
  | .obj fs, .str s => .ok (lookupField fs s).isSome

/-- The JS property read `current[key]` on a container (`undefined` ↦ `none`;
numeric keys on plain objects are coerced to strings).  Reads on primitives
are modelled as `undefined`; no modelled code path indexes into a string. -/
def getProp : JVal → Seg → Option JVal
  | .prim _, _ => none
  | .arr es _, .num n => holeGet es n
  | .arr _ fs, .str s => lookupField fs s
  | .obj fs, .num n => lookupField fs (toString n)
  | .obj fs, .str s => lookupField fs s

/-- The JS property write `current[key] = v` on a container. -/
def setProp : JVal → Seg → JVal → JVal
  | .prim p, _, _ => .prim p
  | .arr es fs, .num n, v => .arr (setIdx es n v) fs
  | .arr es fs, .str s, v => .arr es (upsertField fs s v)
  | .obj fs, .num n, v => .obj (upsertField fs (toString n) v)
  | .obj fs, .str s, v => .obj (upsertField fs s v)

/-! ### CacheStructure -/

/-- `CacheStructure.determineNewLevelType`: the next level is an array iff
the next key is numeric. -/
def determineNewLevelType : Seg → JVal
  | .num _ => .arr [] []
  | .str _ => .obj []

/-- `CacheStructure.initializeNextLevel`: pick the new level's container, but
throw when the key is incompatible with the current container (numeric key
into a non-array, or any key into a primitive). -/
def initializeNextLevel (current : JVal) (key nextKey : Seg) : Except String JVal :=
  let returnValue := determineNewLevelType nextKey
  match key with
  | .num _ => if isArrayJ current then .ok returnValue
              else .error "Error while filling in the cache structure"
  | .str _ => if isObjectTy current then .ok returnValue
              else .error "Error while filling in the cache structure"

/-- `CacheStructure.ensureKeyExists`: if `key` is absent from `current`,
install a fresh container chosen by `nextKey`; return the (possibly updated)
`current` together with the reference `current[key]`. -/
def ensureKeyExists (current : JVal) (key nextKey : Seg) :
    Except String (JVal × JVal) := do
  let h ← jsHasProp current key
  if h then
    match getProp current key with
    | some child => .ok (current, child)
    | none => .error "unreachable: present property read back undefined"
  else
    let rv ← initializeNextLevel current key nextKey
    .ok (setProp current key rv, rv)

/-- `CacheStructure.writeEntry`, restructured as structural recursion on the
parsed key: walk/build the intermediate containers (`checkAndFillCacheStructure`
with `ensureKeyExists` per step), then perform the final guarded assignment.
A mutation made through the reference returned by `ensureKeyExists` is
reflected by re-installing the recursively updated child. -/
def writeEntryAux : JVal → List Seg → JVal → Except String JVal
  | current, [], _ => .ok current
  | current, [last], value =>
    match current, last with
    | .arr es fs, .num n => .ok (setProp (.arr es fs) (.num n) value)
    | .prim p, _ => .ok (.prim p)
    | cur, .str s => .ok (setProp cur (.str s) value)
    | cur, .num _ => .ok cur
  | current, k :: next :: rest, value => do
    let (current', child) ← ensureKeyExists current k next
    let child' ← writeEntryAux child (next :: rest) value
    .ok (setProp current' k child')

/-- `CacheStructure.writeEntry` at the flattened-key level. -/
def writeEntry (cache : JVal) (flattenedKey : String) (value : JVal) :
    Except String JVal :=
  writeEntryAux cache (parseFlattenedKey flattenedKey) value

/-- The walking loop of `CacheStructure.getReference`: descend by array
index or by string member; any other combination returns `undefined`. -/
def getReferenceAux : Option JVal → List Seg → Option JVal
  | cur, [] => cur
  | some (.arr es _), .num n :: rest => getReferenceAux (holeGet es n) rest
  | some (.arr _ fs), .str s :: rest => getReferenceAux (lookupField fs s) rest
  | some (.obj fs), .str s :: rest => getReferenceAux (lookupField fs s) rest
  | _, _ => none

/-- `CacheStructure.getReference`. -/
def getReference (cache : JVal) (flattenedKey : String) : Option JVal :=
  getReferenceAux (some cache) (parseFlattenedKey flattenedKey)

/-- Drop trailing `undefined` holes: JS `for..in` skips holes, so a clone
built by index assignment loses an array's trailing holes. -/
def dropTrailingHoles (es : List (Option JVal)) : List (Option JVal) :=
  (es.reverse.dropWhile (fun e => e.isNone)).reverse

mutual
/-- `CacheStructure.deepClone`: primitives are returned as-is, containers are
rebuilt entry by entry (`for key in obj`), which preserves interior holes but
drops trailing ones. -/
def deepClone : JVal → JVal
  | .prim p => .prim p
  | .arr es fs => .arr (dropTrailingHoles (cloneElems es)) (cloneFields fs)
  | .obj fs => .obj (cloneFields fs)

/-- Clone the indexed elements of an array (holes stay holes). -/
def cloneElems : List (Option JVal) → List (Option JVal)
  | [] => []
  | none :: rest => none :: cloneElems rest
  | some v :: rest => some (deepClone v) :: cloneElems rest

/-- Clone the named fields of a container. -/
def cloneFields : List (String × JVal) → List (String × JVal)
  | [] => []
  | (k, v) :: rest => (k, deepClone v) :: cloneFields rest
end

/-- `CacheStructure.getCopy`: `undefined` stays `undefined`, otherwise deep
clone the referenced value. -/
def getCopy (cache : JVal) (flattenedKey : String) : Option JVal :=
  (getReference cache flattenedKey).map deepClone

/-- The walking loop of `CacheStructure.entryExists`.  Faithful quirks: the
`in` check throws on primitives; descent happens only for array+numeric or
(non-array) object+string steps — any other combination leaves the cursor in
place and continues with the next segment. -/
def entryExistsAux : JVal → List Seg → Except String Bool
  | _, [] => .ok true
  | cur, k :: rest => do
    let h ← jsHasProp cur k
    if h then
      match cur, k with
      | .arr es _, .num n =>
        match holeGet es n with
        | some child => entryExistsAux child rest
        | none => .error "unreachable: present index read back undefined"
      | .obj fso, .str s =>
        match lookupField fso s with
        | some child => entryExistsAux child rest
        | none => .error "unreachable: present member read back undefined"
      | cur', _ => entryExistsAux cur' rest
    else
      .ok false

/-- `CacheStructure.entryExists`. -/
def entryExists (cache : JVal) (flattenedKey : String) : Except String Bool :=
  entryExistsAux cache (parseFlattenedKey flattenedKey)

/-- `CacheStructure.hmiKeyLoaded` on a list of keys: every key must exist. -/
def hmiKeyLoaded (cache : JVal) : List String → Except String Bool
  | [] => .ok true
  | k :: rest => do
    let e ← entryExists cache k
    if e then hmiKeyLoaded cache rest else .ok false

/-! ### Hole-freeness and path validity (verification artifacts) -/

mutual
/-- A value with no `undefined` array slots anywhere (ordinary JSON trees). -/
def holeFree : JVal → Bool
  | .prim _ => true
  | .arr es fs => holeFreeElems es && holeFreeFields fs
  | .obj fs => holeFreeFields fs

def holeFreeElems : List (Option JVal) → Bool
  | [] => true
  | none :: _ => false
  | some v :: rest => holeFree v && holeFreeElems rest

def holeFreeFields : List (String × JVal) → Bool
  | [] => true
  | (_, v) :: rest => holeFree v && holeFreeFields rest
end

/-- Paths along which `writeEntry` both succeeds and stores the value where
`getReference` reads it back: each existing step must descend through an
array by index or through a container by member name (a numeric segment on a
plain object is excluded — `ensureKeyExists` descends into it but
`getReference` cannot), each fresh step must be creatable by
`initializeNextLevel`, and the final guarded assignment must actually fire
(a numeric last segment needs an array). -/
def ValidPath : JVal → List Seg → Bool
  | _, [] => false
  | cur, [k] =>
    match cur, k with
    | .arr _ _, .num _ => true
    | .arr _ _, .str _ => true
    | .obj _, .str _ => true
    | _, _ => false
  | cur, k :: next :: rest =>
    match jsHasProp cur k with
    | .error _ => false
    | .ok true =>
      match cur, k with
      | .arr es _, .num n =>
        match holeGet es n with
        | some child => ValidPath child (next :: rest)
        | none => false
      | .arr _ fs, .str s =>
        match lookupField fs s with
        | some child => ValidPath child (next :: rest)
        | none => false
      | .obj fs, .str s =>
        match lookupField fs s with
        | some child => ValidPath child (next :: rest)
        | none => false
      | _, _ => false
    | .ok false =>
      match cur, k with
      | .arr _ _, .num _ => ValidPath (determineNewLevelType next) (next :: rest)
      | .arr _ _, .str _ => ValidPath (determineNewLevelType next) (next :: rest)
      | .obj _, .str _ => ValidPath (determineNewLevelType next) (next :: rest)
      | _, _ => false

/-- The single-step read descent shared by `getReference` (and by the
notification-trie walk on valid paths): array by index, container by member
name. -/
def readStep : JVal → Seg → Option JVal
  | .arr es _, .num n => holeGet es n
  | .arr _ fs, .str s => lookupField fs s
  | .obj fs, .str s => lookupField fs s
  | _, _ => none

/-- After a successful write, the whole path is present: every step descends
via `readStep` and the leaf holds `v`. -/
def PresentPath : JVal → List Seg → JVal → Prop
  | _, [], _ => False
  | cur, [k], v => readStep cur k = some v
  | cur, k :: next :: rest, v =>
    ∃ child, readStep cur k = some child ∧ PresentPath child (next :: rest) v
/-- A heap value: a primitive or a reference to a heap cell. -/
inductive HVal where
  | hprim (p : JPrim)
  | href (a : Nat)
deriving DecidableEq, Repr

/-- A heap cell: one JS array or object (hole-free heap model). -/
inductive HCell where
  | harr (es : List HVal)
  | hobj (fs : List (String × HVal))
deriving DecidableEq, Repr

/-- The JS heap: cell at address `a` is `h.get? a`; allocation appends. -/
abbrev Heap := List HCell

/-- The references stored directly in a cell. -/
def cellRefs : HCell → List Nat
  | .harr es => es.filterMap (fun v => match v with | .href a => some a | _ => none)
  | .hobj fs => fs.filterMap (fun kv => match kv.2 with | .href a => some a | _ => none)

/-- Every reference stored in the heap points at an existing cell. -/
def WFHeap (h : Heap) : Bool :=
  h.all (fun c => (cellRefs c).all (fun a => a < h.length))

mutual
/-- `CacheStructure.deepClone` against the heap: primitives are returned
as-is; a referenced cell is cloned child-by-child and the copy is allocated
fresh at the end of the heap.  `fuel` bounds the recursion depth (the source
would diverge on cyclic structures; cache contents are acyclic). -/
def deepCloneH : Nat → Heap → HVal → Option (Heap × HVal)
  | _, h, .hprim p => some (h, .hprim p)
  | 0, _, .href _ => none
  | fuel + 1, h, .href a =>
    match h.get? a with
    | none => none
    | some (.harr es) =>
      match cloneElemsH fuel h es with
      | none => none
      | some (h', es') => some (h' ++ [.harr es'], .href h'.length)
    | some (.hobj fs) =>
      match cloneFieldsH fuel h fs with
      | none => none
      | some (h', fs') => some (h' ++ [.hobj fs'], .href h'.length)
termination_by fuel _ _ => (fuel, 0, 0)

def cloneElemsH : Nat → Heap → List HVal → Option (Heap × List HVal)
  | _, h, [] => some (h, [])
  | fuel, h, v :: rest =>
    match deepCloneH fuel h v with
    | none => none
    | some (h', v') =>
      match cloneElemsH fuel h' rest with
      | none => none
      | some (h'', rest') => some (h'', v' :: rest')
termination_by fuel _ es => (fuel, 1, es.length)

def cloneFieldsH : Nat → Heap → List (String × HVal) → Option (Heap × List (String × HVal))
  | _, h, [] => some (h, [])
  | fuel, h, (k, v) :: rest =>
    match deepCloneH fuel h v with
    | none => none
    | some (h', v') =>
      match cloneFieldsH fuel h' rest with
      | none => none
      | some (h'', rest') => some (h'', (k, v') :: rest')
termination_by fuel _ fs => (fuel, 1, fs.length)
end

/-- `InReach h v a`: address `a` is reachable from heap value `v` in `h`
(i.e. `a` is the address of `v` itself or of a substructure). -/
inductive InReach (h : Heap) : HVal → Nat → Prop where
  | here (a : Nat) : InReach h (.href a) a
  | viaArr (a b : Nat) (es : List HVal) (e : HVal) :
      h.get? a = some (.harr es) → e ∈ es → InReach h e b → InReach h (.href a) b
  | viaObj (a b : Nat) (fs : List (String × HVal)) (k : String) (e : HVal) :
      h.get? a = some (.hobj fs) → (k, e) ∈ fs → InReach h e b → InReach h (.href a) b

/-- The clone result is"fresh": its own address and those of all its
substructures lie at or above `lo`, with all cells present in `h`. -/
inductive FreshStruct (lo : Nat) (h : Heap) : HVal → Prop where
  | prim (p : JPrim) : FreshStruct lo h (.hprim p)
  | refArr {a : Nat} {es : List HVal} :
      lo ≤ a → h.get? a = some (.harr es) →
      (∀ e ∈ es, FreshStruct lo h e) → FreshStruct lo h (.href a)
  | refObj {a : Nat} {fs : List (String × HVal)} :
      lo ≤ a → h.get? a = some (.hobj fs) →
      (∀ kv ∈ fs, FreshStruct lo h kv.2) → FreshStruct lo h (.href a)

/-- A heap value whose own reference (if any) points into the first `n`
cells. -/
def topRefLt (n : Nat) : HVal → Prop
  | .hprim _ => True
  | .href a => a < n

/-! ### Write transactions (WriteTransaction.ts) -/

/-- `Map.prototype.set` on an insertion-ordered association list: update in
place if present, else append. -/
def setDep : List (String × Option Bool) → String → Option Bool → List (String × Option Bool)
  | [], k, b => [(k, b)]
  | (k', b') :: rest, k, b =>
    if k' = k then (k', b) :: rest else (k', b') :: setDep rest k b

/-- `Map.prototype.has`. -/
def depHas : List (String × Option Bool) → String → Bool
  | [], _ => false
  | (k', _) :: rest, k => k' = k || depHas rest k

/-- `WriteTransaction`: target keys, the value being written, the slot id and
the insertion-ordered `dependentKeys` map (`null` = pending). -/
structure WriteTxn where
  keys : List String
  value : JVal
  id : Nat
  dependentKeys : List (String × Option Bool)
deriving Repr

/-- `WriteTransaction.resolveDependentKey`: record the leaf outcome; throws
when the key is not a dependent key. -/
def WriteTxn.resolveDependentKey (t : WriteTxn) (key : String) (result : Bool) :
    Except String WriteTxn :=
  if depHas t.dependentKeys key then
    .ok { t with dependentKeys := setDep t.dependentKeys key (some result) }
  else
    .error ("Key " ++ key ++ " is not a dependent key of this transaction")

/-- The iteration inside `WriteTransaction.checkAndResolve`: stop with
`(false, false)` at the first pending leaf, else AND up the outcomes. -/
def checkAndResolveGo : List (String × Option Bool) → Bool → Bool × Bool
  | [], acc => (true, acc)
  | (_, none) :: _, _ => (false, false)
  | (_, some b) :: rest, acc => checkAndResolveGo rest (acc && b)

/-- `WriteTransaction.checkAndResolve`. -/
def WriteTxn.checkAndResolve (t : WriteTxn) : Bool × Bool :=
  checkAndResolveGo t.dependentKeys true

/-- Slot read `transactions[id]` (dense array of nullable transactions). -/
def slotGet : List (Option WriteTxn) → Nat → Option WriteTxn
  | [], _ => none
  | t :: _, 0 => t
  | _ :: rest, n + 1 => slotGet rest n

/-- Slot write `transactions[id] = t`. -/
def slotSet : List (Option WriteTxn) → Nat → Option WriteTxn → List (Option WriteTxn)
  | [], 0, t => [t]
  | [], n + 1, t => none :: slotSet [] n t
  | _ :: rest, 0, t => t :: rest
  | s :: rest, n + 1, t => s :: slotSet rest n t

/-- `a.toString()` on a JS string array joins with commas. -/
def joinComma : List String → String
  | [] => ""
  | [s] => s
  | s :: rest => s ++ "," ++ joinComma rest

/-- `WriteTransactionHandler` state: dense slot array, next fresh id, and
the free-list of reusable ids. -/
structure WHandler where
  transactions : List (Option WriteTxn)
  nextId : Nat
  freeSlots : List Nat
deriving Repr

/-- `RPCTransactionHandler.transactionExists`. -/
def WHandler.transactionExists (h : WHandler) (id : Nat) : Bool :=
  (slotGet h.transactions id).isSome

/-- `RPCTransactionHandler.removeTransaction`: null the slot and push the id
onto the free-list. -/
def WHandler.removeTransaction (h : WHandler) (id : Nat) : WHandler :=
  if (slotGet h.transactions id).isSome then
    { h with transactions := slotSet h.transactions id none,
             freeSlots := h.freeSlots ++ [id] }
  else h

/-- `WriteTransactionHandler.isCurrentlyWriting`: some open transaction's
*first* target key is among the given keys. -/
def WHandler.isCurrentlyWriting (h : WHandler) (keys : List String) : Bool :=
  h.transactions.any (fun t =>
    match t with
    | none => false
    | some t => match t.keys with
      | [] => false
      | k0 :: _ => keys.contains k0)

/-- `RPCTransactionHandler.getTransactionFromKey`: first open transaction
whose `keys.toString()` equals the requested `keys.toString()`. -/
def WHandler.getTransactionFromKey (h : WHandler) (keys : List String) : Option WriteTxn :=
  go h.transactions
where
  go : List (Option WriteTxn) → Option WriteTxn
    | [] => none
    | none :: rest => go rest
    | some t :: rest => if joinComma t.keys = joinComma keys then some t else go rest

/-- `WriteTransactionHandler.createTransaction`: reuse the last free slot or
allocate a fresh id, and install the new transaction. -/
def WHandler.createTransaction (h : WHandler) (keys : List String) (value : JVal) :
    WHandler × Nat :=
  match h.freeSlots.getLast? with
  | some id =>
    ({ h with freeSlots := h.freeSlots.dropLast,
              transactions := slotSet h.transactions id
                (some ⟨keys, value, id, []⟩) }, id)
  | none =>
    ({ h with nextId := h.nextId + 1,
              transactions := slotSet h.transactions h.nextId
                (some ⟨keys, value, h.nextId, []⟩) }, h.nextId)

/-- `WriteTransactionHandler.resolveDependentKey`: resolve one dependent
leaf; when all leaves have reported, write the mirror cache at `keys[0]` with
the transaction's original value, emit the ANDed result once on the result
channel, and remove the slot.  Returns the updated handler, the (optionally
written) cache and the values emitted on the result channel. -/
def WHandler.resolveDependentKey (h : WHandler) (id : Nat) (key : String)
    (result : Bool) (cacheRef : Option JVal) :
    Except String (WHandler × Option JVal × List Bool) :=
  match slotGet h.transactions id with
  | none => .ok (h, cacheRef, [])
  | some t => do
    let t' ← t.resolveDependentKey key result
    let h₁ : WHandler := { h with transactions := slotSet h.transactions id (some t') }
    let (check, resultBool) := t'.checkAndResolve
    if check then do
      let cache' ←
        match cacheRef with
        | some c =>
          match t'.keys with
          | [] => Except.error "TypeError: reading keys[0] of an empty key list"
          | k0 :: _ => (writeEntry c k0 t'.value).map some
        | none => Except.ok (none : Option JVal)
      .ok (h₁.removeTransaction id, cache', [resultBool])
    else
      .ok (h₁, cacheRef, [])

/-- A sequence of per-leaf write responses dispatched to the same transaction
(the polling loop calls `resolveDependentKey` once per atomic result), with
the per-step channel emissions concatenated. -/
def runResolutions (h : WHandler) (cache : Option JVal) (id : Nat) :
    List (String × Bool) → Except String (WHandler × Option JVal × List Bool)
  | [] => .ok (h, cache, [])
  | (k, b) :: rest => do
    let (h₁, c₁, e₁) ← h.resolveDependentKey id k b cache
    let (h₂, c₂, e₂) ← runResolutions h₁ c₁ id rest
    .ok (h₂, c₂, e₁ ++ e₂)

/-- Association lookup in a list of processed leaf events. -/
def evLookup : List (String × Bool) → String → Option Bool
  | [], _ => none
  | (k', b) :: rest, k => if k' = k then some b else evLookup rest k

/-- The dependent-keys map of a transaction created for leaves `ks` after the
events `done` have been applied. -/
def depsAfter (ks : List String) (done : List (String × Bool)) :
    List (String × Option Bool) :=
  ks.map (fun k => (k, evLookup done k))

/-! ### Get transactions: cache modes (WriteTransaction.ts, GetTransaction) -/

/-- A value delivered on a get-transaction's channel: the single leaf's
copied value, or the concatenated object for a multi-key request. -/
inductive GetValue where
  | single (v : Option JVal)
  | concat (props : List (String × Option JVal))
deriving Repr

/-- One event on an rxjs subject. -/
inductive GetEvent where
  | nextE (v : GetValue)
  | completeE
  | errorE (msg : String)
deriving Repr

/-- Terminal outcome of a subject: the first terminal event wins, `next`
values before it are delivered. -/
inductive SubjectOutcome where
  | failed (vals : List GetValue) (msg : String)
  | done (vals : List GetValue)
  | pending (vals : List GetValue)
deriving Repr

/-- Fold the rxjs subject semantics over an event list. -/
def subjectOutcomeGo : List GetValue → List GetEvent → SubjectOutcome
  | acc, [] => .pending acc.reverse
  | acc, .nextE v :: rest => subjectOutcomeGo (v :: acc) rest
  | acc, .completeE :: _ => .done acc.reverse
  | acc, .errorE m :: _ => .failed acc.reverse m

def subjectOutcome (events : List GetEvent) : SubjectOutcome :=
  subjectOutcomeGo [] events

/-- `co[lastKey] != undefined`: loose inequality against `undefined`, i.e.
the property is present with a defined value. -/
def coDefined (co : List (String × Option JVal)) (k : String) : Bool :=
  match co with
  | [] => false
  | (k', v) :: rest => if k' = k then v.isSome else coDefined rest k

/-- JS object property assignment on the concatenated object. -/
def coSet : List (String × Option JVal) → String → Option JVal → List (String × Option JVal)
  | [], k, v => [(k, v)]
  | (k', v') :: rest, k, v =>
    if k' = k then (k', v) :: rest else (k', v') :: coSet rest k v

/-- The collision loop of `createConcatenatedObject`: while the candidate
name is taken, throw if the next parent segment exists (truthy), else grow
the name with `"undefined."`/`"."` exactly as JS string coercion does.  The
loop visits strictly longer names, so `co.length + 1` iterations always
suffice; `fuel` makes that termination explicit. -/
def concatLoop (fuel : Nat) (co : List (String × Option JVal)) (ks : List String) :
    String → Nat → Except String String
  | lastKey, backIndex =>
    match fuel with
    | 0 => .error "model: concatenation loop out of fuel"
    | fuel + 1 =>
      if coDefined co lastKey then
        let idx : Int := (ks.length : Int) - 1 - (backIndex : Int)
        match (if idx < 0 then none else ks.get? idx.toNat) with
        | some s =>
          if s ≠ "" then
            .error "You asked for multiple keys with the same identifier in the get-function of the plc connector, this results in key conflicts"
          else
            concatLoop fuel co ks (s ++ "." ++ lastKey) (backIndex + 1)
        | none =>
          concatLoop fuel co ks ("undefined" ++ "." ++ lastKey) (backIndex + 1)
      else
        .ok lastKey

/-- The per-key body of `GetTransaction.createConcatenatedObject` /
`concatenateCacheFromKeys`, folded over the requested keys. -/
def concatObjGo (cache : JVal) : List String → List (String × Option JVal) →
    Except String (List (String × Option JVal))
  | [], co => .ok co
  | key :: rest, co => do
    let ks := splitDotS key
    let lastKey₀ := ks.getLastD ""
    let lk ← concatLoop (co.length + 1) co ks lastKey₀ 1
    concatObjGo cache rest (coSet co lk (getCopy cache key))

/-- `GetTransaction.createConcatenatedObject`. -/
def createConcatenatedObject (cache : JVal) (keys : List String) :
    Except String (List (String × Option JVal)) :=
  concatObjGo cache keys []

/-- `GetTransaction.publishGetData`: a single key publishes the copied cache
value; several keys publish the concatenated object; then the subject
completes. -/
def publishGetData (cache : JVal) (keys : List String) : Except String (List GetEvent) :=
  match keys with
  | [k] => .ok [.nextE (.single (getCopy cache k)), .completeE]
  | _ => do
    let co ← createConcatenatedObject cache keys
    .ok [.nextE (.concat co), .completeE]

/-- `GetTransaction.useIgnoreCache`: push every key with the requested depth
onto the internal read stack (resolution deferred to the next poll). -/
def useIgnoreCacheStack (keys : List String) (depth : Option Int) :
    List (String × Option Int) :=
  keys.map (fun k => (k, depth))

/-- `GetTransaction.initUseWrite`: events emitted synchronously on the
subject paired with the read-stack entries pushed (`[]` means no network
round trip is scheduled). -/
def initUseWrite (cache : JVal) (wh : WHandler) (keys : List String)
    (depth : Option Int) : Except String (List GetEvent × List (String × Option Int)) := do
  let loaded ← hmiKeyLoaded cache keys
  let isWriting := wh.isCurrentlyWriting keys
  if loaded && !isWriting then do
    let evs ← publishGetData cache keys
    .ok (evs, [])
  else if isWriting then
    if keys.length > 1 then
      .error "Getting multiple vars with Cache-Method USE_WRITE is currently not supported due to unwanted behaviour, please use another Cache-Method"
    else
      match wh.getTransactionFromKey keys with
      | some t => .ok ([.nextE (.single (some t.value)), .completeE], [])
      | none => .error "Error while trying to get value. The write-transaction is currently running but the value is undefined."
  else
    .ok ([], useIgnoreCacheStack keys depth)

/-- Result of `GetTransaction.initWaitForWrite`: either resolved now (events
plus read-stack entries) or subscribed to a pending write transaction. -/
inductive WaitForWriteInit where
  | resolvedNow (events : List GetEvent) (readStack : List (String × Option Int))
  | waitingOn (t : WriteTxn)
deriving Repr

/-- `GetTransaction.initWaitForWrite`. -/
def initWaitForWrite (cache : JVal) (wh : WHandler) (keys : List String)
    (depth : Option Int) : Except String WaitForWriteInit := do
  let loaded ← hmiKeyLoaded cache keys
  let isWriting := wh.isCurrentlyWriting keys
  if loaded && !isWriting then do
    let evs ← publishGetData cache keys
    .ok (.resolvedNow evs [])
  else if isWriting then
    if keys.length > 1 then
      .error "Getting multiple vars with Cache-Method WAIT_FOR_WRITE is currently not supported due to unwanted behaviour, please use another Cache-Method"
    else
      match wh.getTransactionFromKey keys with
      | some t => .ok (.waitingOn t)
      | none => .ok (.resolvedNow
          [.errorE "Error while trying to wait for write. No write-transaction found"] [])
  else
    .ok (.resolvedNow [] (useIgnoreCacheStack keys depth))

/-- The callback `initWaitForWrite` subscribes on the write transaction's
subject: on failure it errors the get-subject first (the following `next` /
`complete` are then ignored by rxjs, captured by `subjectOutcome`); on
success it delivers the current cache value at `keys[0]` and completes. -/
def waitForWriteCallback (cache : JVal) (keys : List String) (status : Bool) :
    List GetEvent :=
  (if !status then
    [GetEvent.errorE "Error while trying to wait for write. The Write Transaction was not successful"]
   else []) ++
  [.nextE (.single (getCopy cache (keys.headD ""))), .completeE]

/-! ### Subscriber trie (Trie.ts) and read dispatch (s7Client.ts) -/

/-- A subscriber-trie node: whether this node owns a subject, its reference
count and its children keyed by path segment. -/
inductive Trie where
  | node (hasSubject : Bool) (subscriberCount : Int) (children : List (Seg × Trie))
deriving Repr

/-- `children.get(element)`. -/
def childLookup : List (Seg × Trie) → Seg → Option Trie
  | [], _ => none
  | (k, t) :: rest, s => if k = s then some t else childLookup rest s

/-- `children.set(element, node)` (insertion-ordered map update). -/
def childSet : List (Seg × Trie) → Seg → Trie → List (Seg × Trie)
  | [], s, t => [(s, t)]
  | (k, t') :: rest, s, t =>
    if k = s then (k, t) :: rest else (k, t') :: childSet rest s t

/-- `SubscriberTrie.insert`: create intermediate nodes as needed and attach a
subject at the final node. -/
def Trie.insert : Trie → List Seg → Trie
  | .node _ c ch, [] => .node true c ch
  | .node s c ch, k :: rest =>
    let child := match childLookup ch k with
      | some t => t
      | none => .node false 0 []
    .node s c (childSet ch k (child.insert rest))

/-- `SubscriberTrie.has`: a subject exists at exactly this key. -/
def Trie.has : Trie → List Seg → Bool
  | .node s _ _, [] => s
  | .node _ _ ch, k :: rest =>
    match childLookup ch k with
    | some t => t.has rest
    | none => false

/-- The data-walk step `reference[element]` used by `notifySubscriber` (a
plain JS property read; numeric keys on plain objects coerce to strings,
reads on primitives give `undefined` — no claim path indexes a string). -/
def trieIndex : JVal → Seg → Option JVal
  | .arr es _, .num n => holeGet es n
  | .arr _ fs, .str s => lookupField fs s
  | .obj fs, .num n => lookupField fs (toString n)
  | .obj fs, .str s => lookupField fs s
  | .prim _, _ => none

/-- The walking loop of `SubscriberTrie.notifySubscriber`: descend the trie
(stop when the trie has no child), then the data (stop when
`reference[element]` is `undefined`), and emit the copied subtree at every
visited node owning a subject.  Emissions are listed as (node path, value);
in the source every emission also carries the full changed key. -/
def notifyGo : Trie → JVal → List Seg → List Seg → List (List Seg × JVal)
  | _, _, _, [] => []
  | .node _ _ ch, ref, acc, k :: rest =>
    match childLookup ch k with
    | none => []
    | some (.node s' c' ch') =>
      match trieIndex ref k with
      | none => []
      | some r' =>
        (if s' then [(acc ++ [k], r')] else []) ++
          notifyGo (.node s' c' ch') r' (acc ++ [k]) rest

/-- `SubscriberTrie.notifySubscriber(key, data)`. -/
def notifyEmits (t : Trie) (data : JVal) (segs : List Seg) : List (List Seg × JVal) :=
  notifyGo t data [] segs

/-- The number of emissions delivered to the subscriber sitting at `segs`. -/
def leafEmitCount (emits : List (List Seg × JVal)) (segs : List Seg) : Nat :=
  (emits.filter (fun e => e.1 = segs)).length

/-- The dispatcher's `oldValue !== this.cache.getReference(key)` comparison:
`oldValue` is a fresh deep copy taken before the write, so primitives compare
by value and any comparison involving a container is `true` (a clone is never
reference-identical to the cached structure). -/
def strictNeqCloneRef : Option JVal → Option JVal → Bool
  | none, none => false
  | some (.prim p), some (.prim q) => decide (p ≠ q)
  | _, _ => true

/-- `S7WebserverClient.handleRPCResponseRead`: copy the old value, write the
result through to the cache, notify the cache-aware trie only when the value
changed, and always notify the ignore-cache trie.  Returns the new cache and
the two emission lists. -/
def handleRPCResponseRead (cache : JVal) (key : String) (result : JVal)
    (subscriberTrie ignoreCacheSubscriberTrie : Trie) :
    Except String (JVal × List (List Seg × JVal) × List (List Seg × JVal)) := do
  let oldValue := getCopy cache key
  let cache' ← writeEntry cache key result
  let awareEmits :=
    if strictNeqCloneRef oldValue (getReference cache' key) then
      notifyEmits subscriberTrie cache' (parseFlattenedKey key)
    else []
  let ignoreEmits := notifyEmits ignoreCacheSubscriberTrie cache' (parseFlattenedKey key)
  .ok (cache', awareEmits, ignoreEmits)

/-! ### Key translation (s7Client.ts) -/

/-- `key.startsWith(p)` at the character level. -/
def startsWithJ (s p : String) : Bool :=
  p.data.isPrefixOf s.data

/-- The loop inside `insertPrefixMapping`: scan the substitution map in entry
order keeping the longest mapping key that prefixes `key` (strictly longer
wins). -/
def longestPrefixFold (m : List (String × String)) (key : String) : String :=
  m.foldl
    (fun acc e =>
      if startsWithJ key e.1 && decide (e.1.length > acc.length) then e.1 else acc)
    ""

/-- First binding of a key in the substitution map (JS object keys are
unique). -/
def assocStr : List (String × String) → String → Option String
  | [], _ => none
  | (k, v) :: rest, s => if k = s then some v else assocStr rest s

/-- `S7WebserverClient.insertPrefixMapping`: substitute the longest matching
mapping prefix.  `key.replace(longestPrefix, repl)` replaces the first
occurrence; the chosen mapping key is a prefix of `key`, so its first
occurrence is at position 0 and the replacement is prefix substitution.  The
`none` branch is unreachable: a non-empty fold result is a key of the map. -/
def insertPrefixMapping (m : List (String × String)) (key : String) : String :=
  let longestPrefix := longestPrefixFold m key
  if longestPrefix = "" then key
  else
    match assocStr m longestPrefix with
    | some r => r ++ String.mk (key.data.drop longestPrefix.length)
    | none => key

/-- One segment of `hmiKeyToPlcKey`'s map step:
`isNaN(Number(element)) ? element : "[" + element + "]"`. -/
def wrapNumericSeg (s : String) : String :=
  if segIsNumeric s then "[" ++ s ++ "]" else s

/-- `.join(".")` at the character level. -/
def joinDotChars : List (List Char) → List Char
  | [] => []
  | [s] => s
  | s :: rest => s ++ '.' :: joinDotChars rest

/-- The global replacement `.replace(/\.\[/g, "[")`: scan left to right,
collapsing every `".["` into `"["`. -/
def replaceDotBracket : List Char → List Char
  | [] => []
  | '.' :: '[' :: rest => '[' :: replaceDotBracket rest
  | c :: rest => c :: replaceDotBracket rest

/-- `S7WebserverClient.hmiKeyToPlcKey`: prefix substitution, then wrap
numeric segments in brackets, join on dots and collapse `".["`. -/
def hmiKeyToPlcKey (m : List (String × String)) (key : String) : String :=
  let mappedKey := insertPrefixMapping m key
  String.mk (replaceDotBracket
    (joinDotChars ((splitDotS mappedKey).map (fun s => (wrapNumericSeg s).data))))

/-- Modelled from the spec: after the longest-prefix substitution, every
numeric segment `.N` is rewritten into bracket notation `[N]` (numeric
segments lose their leading dot, other segments keep it). -/
def specPlcKey (m : List (String × String)) (key : String) : String :=
  match splitDotS (insertPrefixMapping m key) with
  | [] => ""
  | s :: rest =>
    String.mk ((wrapNumericSeg s).data ++
      (rest.map (fun t =>
        if segIsNumeric t then '[' :: (t.data ++ [']']) else '.' :: t.data)).join)

/-! ### Polling scheduler and slow mode (s7Client.ts) -/

/-- An RPC method object as collected into a tick's batch, identified by its
method name and custom id (`getRPCMethodObject`). -/
structure RPCReq where
  method : String
  id : String
deriving DecidableEq, Repr

/-- The liveness ping request: `getRPCMethodObject(RPCMethods.Ping, undefined,
"PING")` with `RPCMethods.Ping = "Api.Ping"`. -/
def pingReq : RPCReq :=
  { method := "Api.Ping", id := "PING" }

/-- `S7WebserverClient.collectStaticRPCMethodObjects`: if the collected batch
is empty, enter slow polling mode and add the ping; else leave slow mode.
Returns the updated batch and the new `slowPollingMode` flag. -/
def collectStaticRPCMethodObjects (batch : List RPCReq) : List RPCReq × Bool :=
  if batch.length = 0 then (batch ++ [pingReq], true) else (batch, false)

/-- The polling configuration (`config.polling`). -/
structure PollingConfig where
  minDelay : ℚ
  slowMinDelay : ℚ
  emaAlpha : ℚ
  clamp : Bool
deriving Repr

/-- `S7WebserverClient.exponentialMovingAverage`:
`emaAlpha * timeDiff + (1 - emaAlpha) * pollingDelay`. -/
def exponentialMovingAverage (cfg : PollingConfig) (timeDiff d : ℚ) : ℚ :=
  cfg.emaAlpha * timeDiff + (1 - cfg.emaAlpha) * d

/-- `S7WebserverClient.clampPollingDelay`: clamp the delay from below by
`slowMinDelay` in slow mode, `minDelay` otherwise. -/
def clampPollingDelay (cfg : PollingConfig) (slow : Bool) (d : ℚ) : ℚ :=
  if slow then max cfg.slowMinDelay d else max cfg.minDelay d

/-- `S7WebserverClient.recalculatePollingDelay`: EMA update, then clamp when
`config.polling.clamp === true`. -/
def recalculatePollingDelay (cfg : PollingConfig) (slow : Bool) (timeDiff d : ℚ) : ℚ :=
  let d2 := exponentialMovingAverage cfg timeDiff d
  if cfg.clamp then clampPollingDelay cfg slow d2 else d2

/-- The scheduler state touched by `get`: the slow-mode flag, the current
polling delay, and the delay of the pending poll timeout (`none` =
cleared). -/
structure SchedulerState where
  slowPollingMode : Bool
  pollingDelay : ℚ
  pollTimeoutDelay : Option ℚ
deriving Repr

/-- The slow-mode branch of `S7WebserverClient.get` (lines 1457-1464): if in
slow mode, leave slow mode, reset the delay to `minDelay`, clear the pending
timeout and schedule an immediate one (`setTimeout(..., 0)`). -/
def getSlowModeEffect (cfg : PollingConfig) (st : SchedulerState) : SchedulerState :=
  if st.slowPollingMode then
    { slowPollingMode := false, pollingDelay := cfg.minDelay, pollTimeoutDelay := some 0 }
  else st

/-! ### Schema leaf expansion (s7Client.ts `_collectChildrenKeys`) -/

/-- The recursion guard `depth < 0` (`none` models `Infinity`, never
negative). -/
def depthNeg : Option Int → Bool
  | some d => decide (d < 0)
  | none => false

/-- `depth - 1` for the recursive calls. -/
def depthDec : Option Int → Option Int
  | some d => some (d - 1)
  | none => none

mutual
/-- `S7WebserverClient._collectChildrenKeys` for READ requests, modelled on
the current schema subtree (the state after `getNextReference`): returns the
schema subtree as the call leaves it behind together with the collected read
keys, so that the in-place slot assignment `ref[i] = ""` is visible in the
result.  Arrays recurse into every index, objects into every field in entry
order, and non-container leaves collect one read request for the whole
key. -/
def ccExpand (wholeKey : String) : JVal → Option Int → JVal × List String
  | .prim p, depth =>
    if depthNeg depth then (.prim p, []) else (.prim p, [wholeKey])
  | .arr es fs, depth =>
    if depthNeg depth then (.arr es fs, [])
    else
      (.arr (ccElems wholeKey 0 es (depthDec depth)).1 fs,
        (ccElems wholeKey 0 es (depthDec depth)).2)
  | .obj fs, depth =>
    if depthNeg depth then (.obj fs, [])
    else
      (.obj (ccFields wholeKey fs (depthDec depth)).1,
        (ccFields wholeKey fs (depthDec depth)).2)

/-- The array loop of `_collectChildrenKeys`: an `undefined` slot is assigned
the empty-string placeholder in the schema before the recursive call (the
recursive call on the placeholder scalar is inlined: it collects the slot's
key unless the depth is exhausted). -/
def ccElems (wholeKey : String) (i : Nat) :
    List (Option JVal) → Option Int → List (Option JVal) × List String
  | [], _ => ([], [])
  | none :: rest, depth =>
    (some (JVal.prim (.jstr "")) :: (ccElems wholeKey (i + 1) rest depth).1,
      (if depthNeg depth then [] else [wholeKey ++ "." ++ toString i]) ++
        (ccElems wholeKey (i + 1) rest depth).2)
  | some v :: rest, depth =>
    (some (ccExpand (wholeKey ++ "." ++ toString i) v depth).1 ::
        (ccElems wholeKey (i + 1) rest depth).1,
      (ccExpand (wholeKey ++ "." ++ toString i) v depth).2 ++
        (ccElems wholeKey (i + 1) rest depth).2)

/-- The object loop of `_collectChildrenKeys` (`for (const key in ref)` walks
own keys in insertion order). -/
def ccFields (wholeKey : String) :
    List (String × JVal) → Option Int → List (String × JVal) × List String
  | [], _ => ([], [])
  | (k, v) :: rest, depth =>
    ((k, (ccExpand (wholeKey ++ "." ++ k) v depth).1) ::
        (ccFields wholeKey rest depth).1,
      (ccExpand (wholeKey ++ "." ++ k) v depth).2 ++
        (ccFields wholeKey rest depth).2)
end

/-! ### Initial cache emission of `subscribe` (s7Client.ts) -/

/-- An event seen by a subscriber of `subscribe`'s observable: the emitted
pair `{value, changedKey}`. -/
structure SubEvent where
  value : GetValue
  changedKey : String
deriving Repr

/-- `S7WebserverClient.concatenateCacheFromKeys`: one key returns the plain
copy of its cached value; several keys build the concatenated object with
the same collision loop as `GetTransaction.createConcatenatedObject`. -/
def concatenateCacheFromKeys (cache : JVal) (keys : List String) :
    Except String GetValue :=
  if keys.length = 1 then .ok (.single (getCopy cache (keys.headD "")))
  else
    match createConcatenatedObject cache keys with
    | .error e => .error e
    | .ok co => .ok (.concat co)

/-- The initial-emission prologue of `S7WebserverClient.subscribe` (the
observable producer, before trie registration): with `ignoreCache` falsy and
every key loaded in the cache, emit one event carrying the current cached
value and `changedKey: ""`; exceptions thrown by the cache walk or by the
concatenation escape the producer instead of emitting. -/
def subscribeInitialEvents (cache : JVal) (keys : List String)
    (ignoreCache : Bool) : Except String (List SubEvent) :=
  if ignoreCache then .ok []
  else
    match hmiKeyLoaded cache keys with
    | .error e => .error e
    | .ok false => .ok []
    | .ok true =>
      match concatenateCacheFromKeys cache keys with
      | .error e => .error e
      | .ok v => .ok [{ value := v, changedKey := "" }]

/-! ## Theorems -/


theorem lookupField_upsertField_self (fs : List (String × JVal)) (s : String)
    (v : JVal) : lookupField (upsertField fs s v) s = some v := by
  induction fs with
  | nil => simp [upsertField, lookupField]
  | cons hd tl ih =>
    obtain ⟨k, w⟩ := hd
    by_cases hk : k = s
    · simp [upsertField, hk, lookupField]
    · simp [upsertField, hk, lookupField, ih]

theorem setIdx_get_self (es : List (Option JVal)) (n : Nat) (v : JVal) :
    holeGet (setIdx es n v) n = some v := by
  induction es generalizing n with
  | nil =>
    induction n with
    | zero => simp [setIdx, holeGet]
    | succ m ihm => simpa [setIdx, holeGet] using ihm
  | cons e tl ih =>
    cases n with
    | zero => simp [setIdx, holeGet]
    | succ m => simpa [setIdx, holeGet] using ih m

theorem getReferenceAux_cons (cur : JVal) (k : Seg) (rest : List Seg) :
    getReferenceAux (some cur) (k :: rest) = getReferenceAux (readStep cur k) rest := by
  cases cur with
  | prim p =>
    cases rest with
    | nil => cases k <;> rfl
    | cons r rs => cases k <;> rfl
  | arr es fs => cases k <;> rfl
  | obj fs =>
    cases k with
    | num n =>
      cases rest with
      | nil => rfl
      | cons r rs => rfl
    | str s => rfl

theorem getReferenceAux_none (segs : List Seg) :
    getReferenceAux none segs = none := by
  cases segs with
  | nil => rfl
  | cons k rest => cases k <;> rfl

theorem getReferenceAux_of_presentPath (cur : JVal) (segs : List Seg) (v : JVal)
    (h : PresentPath cur segs v) : getReferenceAux (some cur) segs = some v := by
  induction segs generalizing cur with
  | nil => exact absurd h (by simp [PresentPath])
  | cons k rest ih =>
    cases rest with
    | nil =>
      have hk : readStep cur k = some v := h
      rw [getReferenceAux_cons, hk]
      simp [getReferenceAux]
    | cons r rs =>
      obtain ⟨child, hc, hp⟩ := h
      rw [getReferenceAux_cons, hc]
      exact ih child hp

theorem validPath_of_presentPath (cur : JVal) (segs : List Seg) (v : JVal)
    (h : PresentPath cur segs v) : ValidPath cur segs = true := by
  induction segs generalizing cur with
  | nil => exact absurd h (by simp [PresentPath])
  | cons k rest ih =>
    cases rest with
    | nil =>
      have hk : readStep cur k = some v := h
      cases cur with
      | prim p => simp [readStep] at hk
      | arr es fs => cases k <;> simp [ValidPath]
      | obj fs =>
        cases k with
        | num n => simp [readStep] at hk
        | str s => simp [ValidPath]
    | cons r rs =>
      obtain ⟨child, hc, hp⟩ := h
      have ihc := ih child hp
      cases cur with
      | prim p => simp [readStep] at hc
      | arr es fs =>
        cases k with
        | num n =>
          have hs : (holeGet es n).isSome := by rw [readStep] at hc; simp [hc]
          simp only [ValidPath, jsHasProp, hs]
          rw [readStep] at hc
          simp [hc, ihc]
        | str s =>
          rw [readStep] at hc
          simp only [ValidPath, jsHasProp, hc]
          simp [hc, ihc]
      | obj fs =>
        cases k with
        | num n => simp [readStep] at hc
        | str s =>
          rw [readStep] at hc
          simp only [ValidPath, jsHasProp, hc]
          simp [hc, ihc]

theorem readStep_setProp_self (cur : JVal) (k : Seg) (v : JVal)
    (harr : isArrayJ cur = true ∨ (∃ s, k = .str s) )
    (hcont : isObjectTy cur = true) :
    readStep (setProp cur k v) k = some v := by
  cases cur with
  | prim p => simp [isObjectTy] at hcont
  | arr es fs =>
    cases k with
    | num n => simp [setProp, readStep, setIdx_get_self]
    | str s => simp [setProp, readStep, lookupField_upsertField_self]
  | obj fs =>
    cases k with
    | num n =>
      rcases harr with h | ⟨s, hs⟩
      · simp [isArrayJ] at h
      · exact absurd hs (by simp)
    | str s => simp [setProp, readStep, lookupField_upsertField_self]

/-- A successful `writeEntry` along a valid path stores the value exactly
where the read descent finds it. -/
theorem writeEntryAux_present (segs : List Seg) (cur v : JVal)
    (hp : ValidPath cur segs = true) :
    ∃ cur', writeEntryAux cur segs v = .ok cur' ∧ PresentPath cur' segs v := by
  induction segs generalizing cur with
  | nil => simp [ValidPath] at hp
  | cons k rest ih =>
    cases rest with
    | nil =>
      cases cur with
      | prim p => cases k <;> simp [ValidPath] at hp
      | arr es fs =>
        cases k with
        | num n =>
          refine ⟨_, rfl, ?_⟩
          show readStep (setProp (.arr es fs) (.num n) v) (.num n) = some v
          simp [setProp, readStep, setIdx_get_self]
        | str s =>
          refine ⟨_, rfl, ?_⟩
          show readStep (setProp (.arr es fs) (.str s) v) (.str s) = some v
          simp [setProp, readStep, lookupField_upsertField_self]
      | obj fs =>
        cases k with
        | num n => simp [ValidPath] at hp
        | str s =>
          refine ⟨_, rfl, ?_⟩
          show readStep (setProp (.obj fs) (.str s) v) (.str s) = some v
          simp [setProp, readStep, lookupField_upsertField_self]
    | cons r rs =>
      cases cur with
      | prim p => simp [ValidPath, jsHasProp] at hp
      | arr es fs =>
        cases k with
        | num n =>
          by_cases hpresent : (holeGet es n).isSome
          · obtain ⟨child, hchild⟩ := Option.isSome_iff_exists.mp hpresent
            have hvchild : ValidPath child (r :: rs) = true := by
              simp only [ValidPath, jsHasProp, hpresent, hchild] at hp
              simpa using hp
            obtain ⟨child', hw, hpp⟩ := ih child hvchild
            refine ⟨setProp (.arr es fs) (.num n) child', ?_, ?_⟩
            · simp [writeEntryAux, ensureKeyExists, jsHasProp, hpresent, getProp,
                hchild, hw, Bind.bind, Except.bind]
            · exact ⟨child', by simp [setProp, readStep, setIdx_get_self], hpp⟩
          · have hvchild : ValidPath (determineNewLevelType r) (r :: rs) = true := by
              simp only [ValidPath, jsHasProp, hpresent] at hp
              simpa [Option.isSome_iff_exists] using hp
            obtain ⟨child', hw, hpp⟩ := ih _ hvchild
            refine ⟨setProp (setProp (.arr es fs) (.num n) (determineNewLevelType r))
                (.num n) child', ?_, ?_⟩
            · simp [writeEntryAux, ensureKeyExists, jsHasProp, hpresent,
                initializeNextLevel, isArrayJ, hw, Bind.bind, Except.bind]
            · refine ⟨child', ?_, hpp⟩
              simp [setProp, readStep, setIdx_get_self]
        | str s =>
          by_cases hpresent : (lookupField fs s).isSome
          · obtain ⟨child, hchild⟩ := Option.isSome_iff_exists.mp hpresent
            have hvchild : ValidPath child (r :: rs) = true := by
              simp only [ValidPath, jsHasProp, hpresent, hchild] at hp
              simpa using hp
            obtain ⟨child', hw, hpp⟩ := ih child hvchild
            refine ⟨setProp (.arr es fs) (.str s) child', ?_, ?_⟩
            · simp [writeEntryAux, ensureKeyExists, jsHasProp, hpresent, getProp,
                hchild, hw, Bind.bind, Except.bind]
            · exact ⟨child', by simp [setProp, readStep, lookupField_upsertField_self], hpp⟩
          · have hvchild : ValidPath (determineNewLevelType r) (r :: rs) = true := by
              simp only [ValidPath, jsHasProp, hpresent] at hp
              simpa [Option.isSome_iff_exists] using hp
            obtain ⟨child', hw, hpp⟩ := ih _ hvchild
            refine ⟨setProp (setProp (.arr es fs) (.str s) (determineNewLevelType r))
                (.str s) child', ?_, ?_⟩
            · simp [writeEntryAux, ensureKeyExists, jsHasProp, hpresent,
                initializeNextLevel, isObjectTy, hw, Bind.bind, Except.bind]
            · refine ⟨child', ?_, hpp⟩
              simp [setProp, readStep, lookupField_upsertField_self]
      | obj fs =>
        cases k with
        | num n =>
          cases hls : (lookupField fs (toString n)).isSome <;>
            simp [ValidPath, jsHasProp, hls] at hp
        | str s =>
          by_cases hpresent : (lookupField fs s).isSome
          · obtain ⟨child, hchild⟩ := Option.isSome_iff_exists.mp hpresent
            have hvchild : ValidPath child (r :: rs) = true := by
              simp only [ValidPath, jsHasProp, hpresent, hchild] at hp
              simpa using hp
            obtain ⟨child', hw, hpp⟩ := ih child hvchild
            refine ⟨setProp (.obj fs) (.str s) child', ?_, ?_⟩
            · simp [writeEntryAux, ensureKeyExists, jsHasProp, hpresent, getProp,
                hchild, hw, Bind.bind, Except.bind]
            · exact ⟨child', by simp [setProp, readStep, lookupField_upsertField_self], hpp⟩
          · have hvchild : ValidPath (determineNewLevelType r) (r :: rs) = true := by
              simp only [ValidPath, jsHasProp, hpresent] at hp
              simpa [Option.isSome_iff_exists] using hp
            obtain ⟨child', hw, hpp⟩ := ih _ hvchild
            refine ⟨setProp (setProp (.obj fs) (.str s) (determineNewLevelType r))
                (.str s) child', ?_, ?_⟩
            · simp [writeEntryAux, ensureKeyExists, jsHasProp, hpresent,
                initializeNextLevel, isObjectTy, hw, Bind.bind, Except.bind]
            · refine ⟨child', ?_, hpp⟩
              simp [setProp, readStep, lookupField_upsertField_self]

theorem dropTrailingHoles_of_noHoles (es : List (Option JVal))
    (h : ∀ e ∈ es, e.isSome) : dropTrailingHoles es = es := by
  unfold dropTrailingHoles
  have : es.reverse.dropWhile (fun e => e.isNone) = es.reverse := by
    cases hrev : es.reverse with
    | nil => simp
    | cons e tl =>
      have he : e ∈ es := by
        have : e ∈ es.reverse := by rw [hrev]; exact List.mem_cons_self _ _
        simpa using this
      have := h e he
      rw [List.dropWhile_cons]
      simp [Option.isNone_iff_eq_none]
      intro hne
      exact absurd hne (by simp [Option.isSome_iff_exists] at this; obtain ⟨w, hw⟩ := this; simp [hw])
  rw [this, List.reverse_reverse]

mutual
theorem deepClone_id : ∀ v, holeFree v = true → deepClone v = v
  | .prim _, _ => rfl
  | .arr es fs, h => by
    rw [holeFree] at h
    have h1 : holeFreeElems es = true := by
      cases hq : holeFreeElems es <;> simp [hq] at h ⊢
    have h2 : holeFreeFields fs = true := by
      cases hq : holeFreeFields fs <;> simp [hq] at h ⊢
    rw [deepClone, cloneElems_id es h1, cloneFields_id fs h2,
      dropTrailingHoles_of_noHoles es (holeFreeElems_noHoles es h1)]
  | .obj fs, h => by
    rw [holeFree] at h
    rw [deepClone, cloneFields_id fs h]

theorem cloneElems_id : ∀ es, holeFreeElems es = true → cloneElems es = es
  | [], _ => rfl
  | none :: rest, h => by rw [holeFreeElems] at h; exact absurd h (by simp)
  | some v :: rest, h => by
    rw [holeFreeElems] at h
    have h1 : holeFree v = true := by
      cases hq : holeFree v <;> simp [hq] at h ⊢
    have h2 : holeFreeElems rest = true := by
      cases hq : holeFreeElems rest <;> simp [hq] at h ⊢
    rw [cloneElems, deepClone_id v h1, cloneElems_id rest h2]

theorem cloneFields_id : ∀ fs, holeFreeFields fs = true → cloneFields fs = fs
  | [], _ => rfl
  | (k, v) :: rest, h => by
    rw [holeFreeFields] at h
    have h1 : holeFree v = true := by
      cases hq : holeFree v <;> simp [hq] at h ⊢
    have h2 : holeFreeFields rest = true := by
      cases hq : holeFreeFields rest <;> simp [hq] at h ⊢
    rw [cloneFields, deepClone_id v h1, cloneFields_id rest h2]

theorem holeFreeElems_noHoles : ∀ es, holeFreeElems es = true → ∀ e ∈ es, e.isSome
  | [], _ => by intro e he; simp at he
  | none :: rest, h => by rw [holeFreeElems] at h; exact absurd h (by simp)
  | some v :: rest, h => by
    rw [holeFreeElems] at h
    have h2 : holeFreeElems rest = true := by
      cases hq : holeFreeElems rest <;> simp [hq] at h ⊢
    intro e he
    rcases List.mem_cons.mp he with rfl | hmem
    · rfl
    · exact holeFreeElems_noHoles rest h2 e hmem
end

/-! ### Heap model of `deepClone` (object identity)

The pure `JVal` model cannot express JS reference identity, so the claim
that `getCopy` never returns a structure that is reference-equal to one held
inside the cache is settled against an explicit heap model of hole-free
container structures: cells live at numeric addresses, `deepClone` allocates
every cell of the copy fresh at the end of the heap. -/


theorem get?_append_left {h ext : Heap} {a : Nat} {c : HCell}
    (hc : h.get? a = some c) : (h ++ ext).get? a = some c := by
  have hlt : a < h.length := (List.get?_eq_some.mp hc).1
  rw [List.get?_append hlt]
  exact hc

theorem freshStruct_mono {lo : Nat} {h ext : Heap} {v : HVal}
    (hf : FreshStruct lo h v) : FreshStruct lo (h ++ ext) v := by
  induction hf with
  | prim p => exact .prim p
  | refArr hle hget _ ih => exact .refArr hle (get?_append_left hget) ih
  | refObj hle hget _ ih => exact .refObj hle (get?_append_left hget) ih

theorem freshStruct_weaken {lo lo' : Nat} {h : Heap} {v : HVal}
    (hle : lo' ≤ lo) (hf : FreshStruct lo h v) : FreshStruct lo' h v := by
  induction hf with
  | prim p => exact .prim p
  | refArr ha hget _ ih => exact .refArr (le_trans hle ha) hget ih
  | refObj ha hget _ ih => exact .refObj (le_trans hle ha) hget ih

theorem inReach_bound_of_freshStruct {lo : Nat} {h : Heap} {v : HVal} {a : Nat}
    (hf : FreshStruct lo h v) (hr : InReach h v a) : lo ≤ a := by
  induction hr with
  | here b => cases hf with
    | refArr hle _ _ => exact hle
    | refObj hle _ _ => exact hle
  | viaArr a' b' es' e' hget hmem _ ih =>
    cases hf with
    | refArr hle hget' hkids =>
      rw [hget'] at hget
      injection hget with hgeq
      injection hgeq with heseq
      subst heseq
      exact ih (hkids _ hmem)
    | refObj hle hget' hkids => rw [hget'] at hget; injection hget with h'; cases h'
  | viaObj a' b' fs' k' e' hget hmem _ ih =>
    cases hf with
    | refObj hle hget' hkids =>
      rw [hget'] at hget
      injection hget with hgeq
      injection hgeq with hfseq
      subst hfseq
      exact ih (hkids _ hmem)
    | refArr hle hget' hkids => rw [hget'] at hget; injection hget with h'; cases h'

mutual
/-- Cloning only appends to the heap, and the copy is entirely fresh. -/
theorem deepCloneH_fresh : ∀ (fuel : Nat) (h : Heap) (v : HVal) (h' : Heap) (v' : HVal),
    deepCloneH fuel h v = some (h', v') →
    (∃ ext, h' = h ++ ext) ∧ FreshStruct h.length h' v'
  | fuel, h, .hprim p, h', v', heq => by
    rw [deepCloneH] at heq
    injection heq with heq'
    injection heq' with h1 h2
    subst h1; subst h2
    exact ⟨⟨[], by simp⟩, .prim p⟩
  | 0, h, .href a, h', v', heq => by rw [deepCloneH] at heq; cases heq
  | fuel + 1, h, .href a, h', v', heq => by
    rw [deepCloneH] at heq
    cases hget : h.get? a with
    | none => simp only [hget] at heq; cases heq
    | some c =>
      cases c with
      | harr es =>
        simp only [hget] at heq
        cases hcl : cloneElemsH fuel h es with
        | none => simp only [hcl] at heq; cases heq
        | some pr =>
          obtain ⟨h₁, es'⟩ := pr
          simp only [hcl] at heq
          injection heq with heq'
          injection heq' with h1 h2
          subst h1; subst h2
          obtain ⟨⟨ext₁, hext₁⟩, hfr⟩ := cloneElemsH_fresh fuel h es h₁ es' hcl
          refine ⟨⟨ext₁ ++ [.harr es'], by rw [hext₁]; simp⟩, ?_⟩
          refine .refArr ?_ (List.get?_concat_length h₁ _) ?_
          · rw [hext₁]; simp
          · intro e he
            exact freshStruct_mono (hfr e he)
      | hobj fs =>
        simp only [hget] at heq
        cases hcl : cloneFieldsH fuel h fs with
        | none => simp only [hcl] at heq; cases heq
        | some pr =>
          obtain ⟨h₁, fs'⟩ := pr
          simp only [hcl] at heq
          injection heq with heq'
          injection heq' with h1 h2
          subst h1; subst h2
          obtain ⟨⟨ext₁, hext₁⟩, hfr⟩ := cloneFieldsH_fresh fuel h fs h₁ fs' hcl
          refine ⟨⟨ext₁ ++ [.hobj fs'], by rw [hext₁]; simp⟩, ?_⟩
          refine .refObj ?_ (List.get?_concat_length h₁ _) ?_
          · rw [hext₁]; simp
          · intro kv hkv
            exact freshStruct_mono (hfr kv hkv)
termination_by fuel _ _ => (fuel, 0, 0)

theorem cloneElemsH_fresh : ∀ (fuel : Nat) (h : Heap) (es : List HVal) (h' : Heap)
    (es' : List HVal), cloneElemsH fuel h es = some (h', es') →
    (∃ ext, h' = h ++ ext) ∧ (∀ e ∈ es', FreshStruct h.length h' e)
  | fuel, h, [], h', es', heq => by
    rw [cloneElemsH] at heq
    injection heq with heq'
    injection heq' with h1 h2
    subst h1; subst h2
    exact ⟨⟨[], by simp⟩, by intro e he; simp at he⟩
  | fuel, h, v :: rest, h', es', heq => by
    rw [cloneElemsH] at heq
    cases hcv : deepCloneH fuel h v with
    | none => simp only [hcv] at heq; cases heq
    | some pr =>
      obtain ⟨h₁, v'⟩ := pr
      simp only [hcv] at heq
      cases hcr : cloneElemsH fuel h₁ rest with
      | none => simp only [hcr] at heq; cases heq
      | some pr₂ =>
        obtain ⟨h₂, rest'⟩ := pr₂
        simp only [hcr] at heq
        injection heq with heq'
        injection heq' with h1 h2
        subst h1; subst h2
        obtain ⟨⟨ext₁, hext₁⟩, hfv⟩ := deepCloneH_fresh fuel h v h₁ v' hcv
        obtain ⟨⟨ext₂, hext₂⟩, hfr⟩ := cloneElemsH_fresh fuel h₁ rest h₂ rest' hcr
        refine ⟨⟨ext₁ ++ ext₂, by rw [hext₂, hext₁]; simp⟩, ?_⟩
        intro e he
        rcases List.mem_cons.mp he with rfl | hmem
        · rw [hext₂]; exact freshStruct_mono hfv
        · refine freshStruct_weaken ?_ (hfr e hmem)
          rw [hext₁]; simp
termination_by fuel _ es => (fuel, 1, es.length)

theorem cloneFieldsH_fresh : ∀ (fuel : Nat) (h : Heap) (fs : List (String × HVal))
    (h' : Heap) (fs' : List (String × HVal)), cloneFieldsH fuel h fs = some (h', fs') →
    (∃ ext, h' = h ++ ext) ∧ (∀ kv ∈ fs', FreshStruct h.length h' kv.2)
  | fuel, h, [], h', fs', heq => by
    rw [cloneFieldsH] at heq
    injection heq with heq'
    injection heq' with h1 h2
    subst h1; subst h2
    exact ⟨⟨[], by simp⟩, by intro kv hkv; simp at hkv⟩
  | fuel, h, (k, v) :: rest, h', fs', heq => by
    rw [cloneFieldsH] at heq
    cases hcv : deepCloneH fuel h v with
    | none => simp only [hcv] at heq; cases heq
    | some pr =>
      obtain ⟨h₁, v'⟩ := pr
      simp only [hcv] at heq
      cases hcr : cloneFieldsH fuel h₁ rest with
      | none => simp only [hcr] at heq; cases heq
      | some pr₂ =>
        obtain ⟨h₂, rest'⟩ := pr₂
        simp only [hcr] at heq
        injection heq with heq'
        injection heq' with h1 h2
        subst h1; subst h2
        obtain ⟨⟨ext₁, hext₁⟩, hfv⟩ := deepCloneH_fresh fuel h v h₁ v' hcv
        obtain ⟨⟨ext₂, hext₂⟩, hfr⟩ := cloneFieldsH_fresh fuel h₁ rest h₂ rest' hcr
        refine ⟨⟨ext₁ ++ ext₂, by rw [hext₂, hext₁]; simp⟩, ?_⟩
        intro kv hkv
        rcases List.mem_cons.mp hkv with rfl | hmem
        · rw [hext₂]; exact freshStruct_mono hfv
        · refine freshStruct_weaken ?_ (hfr kv hmem)
          rw [hext₁]; simp
termination_by fuel _ fs => (fuel, 1, fs.length)
end

/-- In a well-formed heap, anything reachable from a value held inside the
heap stays inside the original heap, even after the heap has been extended
by fresh allocations. -/
theorem inReach_lt_of_wf {h ext : Heap} {u : HVal} {a : Nat}
    (hwf : WFHeap h = true) (hr : InReach (h ++ ext) u a) :
    topRefLt h.length u → a < h.length := by
  induction hr with
  | here b => intro htop; exact htop
  | viaArr b c es e hget hmem _ ih =>
    intro htop
    have hblt : b < h.length := htop
    have hgeth : h.get? b = some (.harr es) := by
      rw [List.get?_append hblt] at hget; exact hget
    refine ih ?_
    have hcell : HCell.harr es ∈ h := List.get?_mem hgeth
    have hrefs := List.all_eq_true.mp (List.all_eq_true.mp hwf _ hcell)
    cases e with
    | hprim p => trivial
    | href r =>
      have : r ∈ cellRefs (.harr es) := by
        simp [cellRefs, List.mem_filterMap]
        exact ⟨.href r, hmem, rfl⟩
      simpa [topRefLt] using hrefs _ this
  | viaObj b c fs k e hget hmem _ ih =>
    intro htop
    have hblt : b < h.length := htop
    have hgeth : h.get? b = some (.hobj fs) := by
      rw [List.get?_append hblt] at hget; exact hget
    refine ih ?_
    have hcell : HCell.hobj fs ∈ h := List.get?_mem hgeth
    have hrefs := List.all_eq_true.mp (List.all_eq_true.mp hwf _ hcell)
    cases e with
    | hprim p => trivial
    | href r =>
      have : r ∈ cellRefs (.hobj fs) := by
        simp [cellRefs, List.mem_filterMap]
        exact ⟨k, .href r, hmem, rfl⟩
      simpa [topRefLt] using hrefs _ this


/-! ## Claims C4 and C5 -/

/-- C4 (confirmed): cache round-trip.  For every key whose path fits the
cache/schema shape (`ValidPath`) and every hole-free value `v`, after
`writeEntry(k, v)` the call `getCopy(k)` returns a value structurally equal
to `v`; and — in the heap model of `deepClone` — the copy returned is not
reference-equal to any structure held inside the cache: no address reachable
from the clone is reachable from any value stored in the pre-clone heap. -/
theorem c4_cache_roundTrip_and_fresh_copy
    (cache v : JVal) (key : String)
    (hpath : ValidPath cache (parseFlattenedKey key) = true)
    (hv : holeFree v = true)
    (fuel : Nat) (h h' : Heap) (w w' : HVal)
    (hwf : WFHeap h = true)
    (hclone : deepCloneH fuel h w = some (h', w')) :
    (∃ cache', writeEntry cache key v = .ok cache' ∧ getCopy cache' key = some v)
    ∧ (∀ a : Nat, InReach h' w' a → ∀ u : HVal, topRefLt h.length u → ¬ InReach h' u a) := by
  constructor
  · obtain ⟨cache', hw, hpp⟩ := writeEntryAux_present (parseFlattenedKey key) cache v hpath
    refine ⟨cache', hw, ?_⟩
    unfold getCopy getReference
    rw [getReferenceAux_of_presentPath cache' _ v hpp]
    simp [deepClone_id v hv]
  · intro a hra u htop hru
    obtain ⟨⟨ext, hext⟩, hfr⟩ := deepCloneH_fresh fuel h w h' w' hclone
    have hge : h.length ≤ a := inReach_bound_of_freshStruct hfr hra
    subst hext
    have hlt : a < h.length := inReach_lt_of_wf hwf hru htop
    omega

/-- Witness for C4 at a concrete input. -/
theorem c4_witness :
    (ValidPath (JVal.obj [("DB", .obj [("a", .prim (.jint 0))])])
        (parseFlattenedKey "DB.a") = true)
    ∧ (holeFree (JVal.prim (.jint 5)) = true)
    ∧ (WFHeap [HCell.hobj [("x", .hprim (.jint 1))]] = true)
    ∧ (deepCloneH 2 [HCell.hobj [("x", .hprim (.jint 1))]] (.href 0) =
        some ([HCell.hobj [("x", .hprim (.jint 1))], HCell.hobj [("x", .hprim (.jint 1))]],
          .href 1))
    ∧ ((∃ cache', writeEntry (JVal.obj [("DB", .obj [("a", .prim (.jint 0))])]) "DB.a"
          (.prim (.jint 5)) = .ok cache' ∧ getCopy cache' "DB.a" = some (.prim (.jint 5)))
        ∧ (∀ a : Nat,
            InReach [HCell.hobj [("x", .hprim (.jint 1))], HCell.hobj [("x", .hprim (.jint 1))]]
              (.href 1) a →
            ∀ u : HVal, topRefLt 1 u →
            ¬ InReach [HCell.hobj [("x", .hprim (.jint 1))], HCell.hobj [("x", .hprim (.jint 1))]]
              u a)) :=
  ⟨by decide, rfl, by decide, by simp [deepCloneH, cloneFieldsH],
    c4_cache_roundTrip_and_fresh_copy
      (JVal.obj [("DB", .obj [("a", .prim (.jint 0))])]) (.prim (.jint 5)) "DB.a"
      (by decide) rfl 2 [HCell.hobj [("x", .hprim (.jint 1))]]
      [HCell.hobj [("x", .hprim (.jint 1))], HCell.hobj [("x", .hprim (.jint 1))]]
      (.href 0) (.href 1) (by decide) (by simp [deepCloneH, cloneFieldsH])⟩

/-- C5 counterexample: the claim asserts that writing a numeric segment into
an existing non-array container raises an error *also for the final
segment*.  On cache `{a: {b: 1}}`, `writeEntry("a.0", 5)` does not raise: it
returns with the cache unchanged (the final guarded assignment silently does
nothing). -/
theorem c5_counterexample :
    writeEntry (JVal.obj [("a", .obj [("b", .prim (.jint 1))])]) "a.0" (.prim (.jint 5))
      = .ok (JVal.obj [("a", .obj [("b", .prim (.jint 1))])]) := rfl

/-- C5 (amended): `writeEntry` builds every missing intermediate container
along the path, choosing an array when the following segment is numeric and
an object otherwise; a *missing intermediate* numeric segment on a non-array
container raises an error; but a numeric *final* segment on a non-array
container is silently dropped — the write returns with the container
unchanged instead of raising. -/
theorem c5_writeEntry_container_building
    (current v : JVal) (k next : Seg) (n : Nat) (s : String) (rest : List Seg)
    (fs : List (String × JVal)) :
    (jsHasProp current k = .ok false →
      ∀ w, initializeNextLevel current k next = .ok w →
        w = determineNewLevelType next ∧
        ensureKeyExists current k next = .ok (setProp current k w, w)) ∧
    (determineNewLevelType (.num n) = .arr [] [] ∧ determineNewLevelType (.str s) = .obj []) ∧
    (jsHasProp (JVal.obj fs) (.num n) = .ok false →
      writeEntryAux (JVal.obj fs) (.num n :: next :: rest) v =
        .error "Error while filling in the cache structure") ∧
    (writeEntryAux (JVal.obj fs) [.num n] v = .ok (JVal.obj fs)) := by
  refine ⟨?_, ⟨rfl, rfl⟩, ?_, rfl⟩
  · intro hmiss w hinit
    have hwz : w = determineNewLevelType next := by
      unfold initializeNextLevel at hinit
      cases k with
      | num m =>
        by_cases ha : isArrayJ current = true
        · simp [ha] at hinit; simp [hinit]
        · simp [ha] at hinit
      | str t =>
        by_cases ha : isObjectTy current = true
        · simp [ha] at hinit; simp [hinit]
        · simp [ha] at hinit
    refine ⟨hwz, ?_⟩
    unfold ensureKeyExists
    rw [hmiss]
    simp [Bind.bind, Except.bind, hinit, hwz]
  · intro hmiss
    unfold writeEntryAux ensureKeyExists
    rw [hmiss]
    simp [Bind.bind, Except.bind, initializeNextLevel, isArrayJ]

/-- Witness for the amended C5 at concrete inputs. -/
theorem c5_witness :
    (jsHasProp (JVal.obj []) (.str "x") = .ok false)
    ∧ (initializeNextLevel (JVal.obj []) (.str "x") (.num 0) = .ok (.arr [] []))
    ∧ (ensureKeyExists (JVal.obj []) (.str "x") (.num 0) =
        .ok (.obj [("x", .arr [] [])], .arr [] []))
    ∧ (jsHasProp (JVal.obj [("b", .prim (.jint 1))]) (.num 0) = .ok false)
    ∧ (writeEntryAux (JVal.obj [("b", .prim (.jint 1))]) [.num 0, .str "y"] (.prim (.jint 7)) =
        .error "Error while filling in the cache structure")
    ∧ (writeEntryAux (JVal.obj [("b", .prim (.jint 1))]) [.num 0] (.prim (.jint 7)) =
        .ok (JVal.obj [("b", .prim (.jint 1))])) := by
  have h := c5_writeEntry_container_building (JVal.obj []) (.prim (.jint 7))
    (.str "x") (.num 0) 0 "s" [] [("b", .prim (.jint 1))]
  refine ⟨rfl, rfl, ?_, rfl, ?_, h.2.2.2⟩
  · have := (h.1 rfl (.arr [] []) rfl).2
    simpa [setProp, upsertField] using this
  · have h2 := c5_writeEntry_container_building (JVal.obj []) (.prim (.jint 7))
      (.str "x") (.num 0) 0 "s" [] [("b", .prim (.jint 1))]
    exact h2.2.2.1 rfl

/-! ### Transaction-resolution lemmas (C1) -/

theorem slotGet_slotSet_self (l : List (Option WriteTxn)) (n : Nat) (x : Option WriteTxn) :
    slotGet (slotSet l n x) n = x := by
  induction l generalizing n with
  | nil =>
    induction n with
    | zero => simp [slotSet, slotGet]
    | succ m ihm => simpa [slotSet, slotGet] using ihm
  | cons e tl ih =>
    cases n with
    | zero => simp [slotSet, slotGet]
    | succ m => simpa [slotSet, slotGet] using ih m

theorem evLookup_append (d₁ d₂ : List (String × Bool)) (k : String) :
    evLookup (d₁ ++ d₂) k =
      (match evLookup d₁ k with
       | some b => some b
       | none => evLookup d₂ k) := by
  induction d₁ with
  | nil => simp [evLookup]
  | cons e tl ih =>
    obtain ⟨k', b⟩ := e
    by_cases hk : k' = k <;> simp [evLookup, hk, ih]

theorem evLookup_eq_none_of_not_mem (d : List (String × Bool)) (k : String)
    (h : k ∉ d.map Prod.fst) : evLookup d k = none := by
  induction d with
  | nil => rfl
  | cons e tl ih =>
    obtain ⟨k', b⟩ := e
    have hk : ¬ k' = k := fun hq => h (by simp [hq])
    have htl : k ∉ tl.map Prod.fst := fun hq => h (by simp [hq])
    simp [evLookup, hk, ih htl]

theorem mem_of_evLookup_eq_some (d : List (String × Bool)) (k : String) (b : Bool)
    (h : evLookup d k = some b) : (k, b) ∈ d := by
  induction d with
  | nil => simp [evLookup] at h
  | cons e tl ih =>
    obtain ⟨k', b'⟩ := e
    by_cases hk : k' = k
    · subst hk
      simp [evLookup] at h
      simp [h]
    · simp [evLookup, hk] at h
      exact List.mem_cons_of_mem _ (ih h)

theorem evLookup_isSome_of_mem (d : List (String × Bool)) (k : String)
    (h : k ∈ d.map Prod.fst) : (evLookup d k).isSome := by
  induction d with
  | nil => simp at h
  | cons e tl ih =>
    obtain ⟨k', b'⟩ := e
    by_cases hk : k' = k
    · simp [evLookup, hk]
    · have h' : k ∈ k' :: tl.map Prod.fst := by simpa using h
      rcases List.mem_cons.mp h' with rfl | htl
      · exact absurd rfl hk
      · simpa [evLookup, hk] using ih htl

theorem depHas_depsAfter (ks : List String) (done : List (String × Bool)) (k : String) :
    depHas (depsAfter ks done) k = ks.contains k := by
  induction ks with
  | nil => rfl
  | cons k' tl ih =>
    by_cases hk : k' = k
    · subst hk
      simp [depsAfter, depHas, List.contains_cons]
    · have hk2 : ¬ k = k' := fun hq => hk hq.symm
      have ih' : depHas (List.map (fun k => (k, evLookup done k)) tl) k = tl.contains k := by
        simpa [depsAfter] using ih
      simp [depsAfter, depHas, hk, hk2, ih', List.contains_cons]

theorem setDep_depsAfter (ks : List String) (done : List (String × Bool)) (k : String)
    (b : Bool) (hnodup : ks.Nodup) (hmem : k ∈ ks) (hnew : evLookup done k = none) :
    setDep (depsAfter ks done) k (some b) = depsAfter ks (done ++ [(k, b)]) := by
  induction ks with
  | nil => simp at hmem
  | cons k' tl ih =>
    rcases List.nodup_cons.mp hnodup with ⟨hk'tl, htl⟩
    by_cases hk : k' = k
    · subst hk
      simp only [depsAfter, List.map_cons, setDep, if_pos rfl]
      have hhead : evLookup (done ++ [(k', b)]) k' = some b := by
        rw [evLookup_append, hnew]
        simp [evLookup]
      rw [hhead]
      have htail : tl.map (fun x => (x, evLookup done x)) =
          tl.map (fun x => (x, evLookup (done ++ [(k', b)]) x)) := by
        apply List.map_congr_left
        intro a ha
        have hka : ¬ k' = a := fun hq => hk'tl (hq ▸ ha)
        rw [evLookup_append]
        cases h64 : evLookup done a with
        | some w => rfl
        | none => simp [evLookup, hka]
      rw [htail]
      simp
    · rcases List.mem_cons.mp hmem with rfl | hmemtl
      · exact absurd rfl hk
      · simp only [depsAfter, List.map_cons, setDep, if_neg hk]
        have hk2 : ¬ k = k' := fun hq => hk hq.symm
        have hhead : evLookup (done ++ [(k, b)]) k' = evLookup done k' := by
          rw [evLookup_append]
          cases h64 : evLookup done k' with
          | some w => rfl
          | none => simp [evLookup, hk2]
        rw [hhead]
        have htl2 := ih htl hmemtl
        simp only [depsAfter] at htl2
        rw [htl2]

theorem checkAndResolveGo_pending (ks : List String) (done : List (String × Bool))
    (acc : Bool) (h : ∃ k ∈ ks, evLookup done k = none) :
    checkAndResolveGo (depsAfter ks done) acc = (false, false) := by
  induction ks generalizing acc with
  | nil => obtain ⟨k, hk, _⟩ := h; simp at hk
  | cons k' tl ih =>
    cases h64 : evLookup done k' with
    | none => simp [depsAfter, checkAndResolveGo, h64]
    | some b =>
      obtain ⟨k, hk, hkn⟩ := h
      rcases List.mem_cons.mp hk with rfl | hmem
      · rw [h64] at hkn; cases hkn
      · simp only [depsAfter, List.map_cons, checkAndResolveGo, h64]
        exact ih (acc && b) ⟨k, hmem, hkn⟩

theorem checkAndResolveGo_done (ks : List String) (done : List (String × Bool))
    (acc : Bool) (h : ∀ k ∈ ks, (evLookup done k).isSome) :
    checkAndResolveGo (depsAfter ks done) acc =
      (true, acc && ks.all (fun k => (evLookup done k).getD true)) := by
  induction ks generalizing acc with
  | nil => simp [depsAfter, checkAndResolveGo]
  | cons k' tl ih =>
    have hk' := h k' (List.mem_cons_self _ _)
    obtain ⟨b, hb⟩ := Option.isSome_iff_exists.mp hk'
    have ih' := ih (acc && b) (fun k hk => h k (List.mem_cons_of_mem _ hk))
    simp only [depsAfter] at ih'
    simp only [depsAfter, List.map_cons, checkAndResolveGo, hb]
    rw [ih']
    simp [hb, Bool.and_assoc]

theorem allLookup_eq_allSnd (ks : List String) (done : List (String × Bool))
    (hperm : (done.map Prod.fst).Perm ks) (hnodup : ks.Nodup) :
    ks.all (fun k => (evLookup done k).getD true) = done.all (fun e => e.2) := by
  have hdnodup : (done.map Prod.fst).Nodup := hperm.nodup_iff.mpr hnodup
  rw [Bool.eq_iff_iff]
  simp only [List.all_eq_true]
  constructor
  · intro hall e hmem
    have hk : e.1 ∈ done.map Prod.fst := List.mem_map_of_mem _ hmem
    have hks : e.1 ∈ ks := hperm.mem_iff.mp hk
    have := hall e.1 hks
    obtain ⟨b, hb⟩ := Option.isSome_iff_exists.mp (evLookup_isSome_of_mem done e.1 hk)
    rw [hb] at this
    simp at this
    have hmem' : (e.1, b) ∈ done := mem_of_evLookup_eq_some done e.1 b hb
    -- with nodup keys, e and (e.1, b) agree
    have : e.2 = b := by
      obtain ⟨k, v⟩ := e
      by_contra hneq
      have h1 : (k, v) ∈ done := hmem
      have h2 : (k, b) ∈ done := hmem'
      -- two entries with the same key contradict key-nodup unless equal
      have := List.inj_on_of_nodup_map hdnodup h1 h2 rfl
      simp at this
      exact hneq (by simp [this])
    rw [this]
    have := hall e.1 hks
    rw [hb] at this
    simpa using this
  · intro hall k hks
    have hk : k ∈ done.map Prod.fst := hperm.mem_iff.mpr hks
    obtain ⟨b, hb⟩ := Option.isSome_iff_exists.mp (evLookup_isSome_of_mem done k hk)
    rw [hb]
    have := hall (k, b) (mem_of_evLookup_eq_some done k b hb)
    simpa using this

theorem evLookup_append_eq_none (d₁ d₂ : List (String × Bool)) (k : String)
    (h : evLookup (d₁ ++ d₂) k = none) :
    evLookup d₁ k = none ∧ evLookup d₂ k = none := by
  rw [evLookup_append] at h
  cases h64 : evLookup d₁ k with
  | some w => simp only [h64] at h; cases h
  | none => simp only [h64] at h; exact ⟨rfl, h⟩

theorem runResolutions_silent (p : List (String × Bool)) :
    ∀ (wh : WHandler) (cache : JVal) (tid : Nat) (t : WriteTxn) (ks : List String)
      (done : List (String × Bool)),
    slotGet wh.transactions tid = some t →
    t.dependentKeys = depsAfter ks done →
    ks.Nodup →
    (∀ e ∈ p, e.1 ∈ ks ∧ evLookup done e.1 = none) →
    (p.map Prod.fst).Nodup →
    (∃ k ∈ ks, evLookup (done ++ p) k = none) →
    ∃ hp, runResolutions wh (some cache) tid p = .ok (hp, some cache, []) ∧
      slotGet hp.transactions tid =
        some { t with dependentKeys := depsAfter ks (done ++ p) } := by
  induction p with
  | nil =>
    intro wh cache tid t ks done hslot hdeps _ _ _ _
    refine ⟨wh, by simp [runResolutions], ?_⟩
    rw [hslot, List.append_nil, ← hdeps]
  | cons e rest ih =>
    intro wh cache tid t ks done hslot hdeps hnodup hpend hkeysnodup hmiss
    obtain ⟨k, b⟩ := e
    obtain ⟨hkks, hkpend⟩ := hpend (k, b) (List.mem_cons_self _ _)
    have hhas : depHas t.dependentKeys k = true := by
      rw [hdeps, depHas_depsAfter]
      simp [hkks]
    have hset : setDep t.dependentKeys k (some b) = depsAfter ks (done ++ [(k, b)]) := by
      rw [hdeps]
      exact setDep_depsAfter ks done k b hnodup hkks hkpend
    have hmiss' : ∃ k' ∈ ks, evLookup (done ++ [(k, b)]) k' = none := by
      obtain ⟨k', hk'ks, hk'n⟩ := hmiss
      refine ⟨k', hk'ks, ?_⟩
      obtain ⟨hd, ht⟩ := evLookup_append_eq_none done ((k, b) :: rest) k' hk'n
      have hkk' : ¬ k = k' := by
        intro hq
        subst hq
        simp [evLookup] at ht
      rw [evLookup_append, hd]
      simp [evLookup, hkk']
    have hcheck : checkAndResolveGo (depsAfter ks (done ++ [(k, b)])) true = (false, false) := by
      apply checkAndResolveGo_pending
      exact hmiss'
    have hstep : wh.resolveDependentKey tid k b (some cache) = .ok ({ wh with transactions := slotSet wh.transactions tid (some { t with dependentKeys := depsAfter ks (done ++ [(k, b)]) }) }, some cache, []) := by
      unfold WHandler.resolveDependentKey WriteTxn.resolveDependentKey
        WriteTxn.checkAndResolve
      simp only [hslot, hhas, hset, hcheck, if_true, Bind.bind, Except.bind]
      rfl
    obtain ⟨hp, hrun, hslot'⟩ := ih
      { wh with transactions := slotSet wh.transactions tid (some { t with dependentKeys := depsAfter ks (done ++ [(k, b)]) }) }
      cache tid { t with dependentKeys := depsAfter ks (done ++ [(k, b)]) } ks
      (done ++ [(k, b)])
      (by simpa using slotGet_slotSet_self _ _ _)
      rfl hnodup
      (by
        intro e' he'
        obtain ⟨he1, he2⟩ := hpend e' (List.mem_cons_of_mem _ he')
        refine ⟨he1, ?_⟩
        rw [evLookup_append, he2]
        have hne : e'.1 ≠ k := by
          rcases List.nodup_cons.mp hkeysnodup with ⟨hknotin, _⟩
          have hmem' : e'.1 ∈ rest.map Prod.fst := List.mem_map_of_mem Prod.fst he'
          intro hq
          rw [hq] at hmem'
          exact hknotin hmem'
        have hne2 : ¬ k = e'.1 := fun hq => hne hq.symm
        simp [evLookup, hne2])
      (List.nodup_cons.mp hkeysnodup).2
      (by
        obtain ⟨k', hk'ks, hk'n⟩ := hmiss
        refine ⟨k', hk'ks, ?_⟩
        have heq : (done ++ [(k, b)]) ++ rest = done ++ ((k, b) :: rest) := by simp
        rw [heq]
        exact hk'n)
    refine ⟨hp, ?_, ?_⟩
    · unfold runResolutions
      rw [hstep]
      simp only [Bind.bind, Except.bind, hrun]
      rfl
    · rw [hslot']
      congr 2
      rw [List.append_assoc]
      rfl

theorem runResolutions_spec (events : List (String × Bool)) :
    ∀ (wh : WHandler) (cache : JVal) (tid : Nat) (t : WriteTxn) (ks : List String)
      (done : List (String × Bool)) (tgt : String) (krest : List String) (cw : JVal),
    slotGet wh.transactions tid = some t →
    t.keys = tgt :: krest →
    t.dependentKeys = depsAfter ks done →
    ks.Nodup →
    (∀ e ∈ events, e.1 ∈ ks ∧ evLookup done e.1 = none) →
    (events.map Prod.fst).Nodup →
    (∀ k ∈ ks, evLookup done k = none → k ∈ events.map Prod.fst) →
    events ≠ [] →
    writeEntry cache tgt t.value = .ok cw →
    ∃ h', runResolutions wh (some cache) tid events =
        .ok (h', some cw,
          [ks.all (fun k => (evLookup (done ++ events) k).getD true)]) ∧
      slotGet h'.transactions tid = none := by
  induction events with
  | nil => intro _ _ _ _ _ _ _ _ _ _ _ _ _ _ _ _ hne _; exact absurd rfl hne
  | cons e rest ih =>
    intro wh cache tid t ks done tgt krest cw hslot hkeys hdeps hnodup hpend
      hkeysnodup hcover _ hwrite
    obtain ⟨k, b⟩ := e
    obtain ⟨hkks, hkpend⟩ := hpend (k, b) (List.mem_cons_self _ _)
    have hhas : depHas t.dependentKeys k = true := by
      rw [hdeps, depHas_depsAfter]; simp [hkks]
    have hset : setDep t.dependentKeys k (some b) = depsAfter ks (done ++ [(k, b)]) := by
      rw [hdeps]; exact setDep_depsAfter ks done k b hnodup hkks hkpend
    cases rest with
    | nil =>
      -- final leaf: the transaction resolves
      have hall : ∀ k' ∈ ks, (evLookup (done ++ [(k, b)]) k').isSome := by
        intro k' hk'
        rw [evLookup_append]
        cases h64 : evLookup done k' with
        | some w => simp
        | none =>
          have := hcover k' hk' h64
          simp at this
          subst this
          simp [evLookup]
      have hcheck : checkAndResolveGo (depsAfter ks (done ++ [(k, b)])) true =
          (true, ks.all (fun k' => (evLookup (done ++ [(k, b)]) k').getD true)) := by
        rw [checkAndResolveGo_done ks (done ++ [(k, b)]) true hall]
        simp
      refine ⟨({ wh with transactions := slotSet wh.transactions tid (some { t with dependentKeys := depsAfter ks (done ++ [(k, b)]) }) } : WHandler).removeTransaction tid, ?_, ?_⟩
      · unfold runResolutions WHandler.resolveDependentKey WriteTxn.resolveDependentKey
          WriteTxn.checkAndResolve
        simp only [hslot, hhas, hset, hcheck, if_true, Bind.bind, Except.bind]
        simp only [hkeys, hwrite, runResolutions, Except.bind, Except.map]
        rfl
      · unfold WHandler.removeTransaction
        simp [slotGet_slotSet_self]
    | cons e₂ rest₂ =>
      -- at least one leaf still pending after this step
      have hmiss' : ∃ k' ∈ ks, evLookup (done ++ [(k, b)]) k' = none := by
        refine ⟨e₂.1, (hpend e₂ (by simp)).1, ?_⟩
        rw [evLookup_append, (hpend e₂ (by simp)).2]
        have hne : e₂.1 ≠ k := by
          rcases List.nodup_cons.mp hkeysnodup with ⟨hknotin, _⟩
          intro hq
          exact hknotin (hq ▸ (by simp : e₂.1 ∈ (e₂ :: rest₂).map Prod.fst))
        have hne2 : ¬ k = e₂.1 := fun hq => hne hq.symm
        simp [evLookup, hne2]
      have hcheck : checkAndResolveGo (depsAfter ks (done ++ [(k, b)])) true = (false, false) :=
        checkAndResolveGo_pending ks (done ++ [(k, b)]) true hmiss'
      have hstep : wh.resolveDependentKey tid k b (some cache) = .ok ({ wh with transactions := slotSet wh.transactions tid (some { t with dependentKeys := depsAfter ks (done ++ [(k, b)]) }) }, some cache, []) := by
        unfold WHandler.resolveDependentKey WriteTxn.resolveDependentKey
          WriteTxn.checkAndResolve
        simp only [hslot, hhas, hset, hcheck, if_true, Bind.bind, Except.bind]
        rfl
      obtain ⟨h', hrun, hslot'⟩ := ih
        { wh with transactions := slotSet wh.transactions tid (some { t with dependentKeys := depsAfter ks (done ++ [(k, b)]) }) }
        cache tid { t with dependentKeys := depsAfter ks (done ++ [(k, b)]) } ks
        (done ++ [(k, b)]) tgt krest cw
        (by simpa using slotGet_slotSet_self _ _ _)
        hkeys rfl hnodup
        (by
          intro e' he'
          obtain ⟨he1, he2⟩ := hpend e' (List.mem_cons_of_mem _ he')
          refine ⟨he1, ?_⟩
          rw [evLookup_append, he2]
          have hne : e'.1 ≠ k := by
            rcases List.nodup_cons.mp hkeysnodup with ⟨hknotin, _⟩
            have hmem' : e'.1 ∈ (e₂ :: rest₂).map Prod.fst := List.mem_map_of_mem Prod.fst he'
            intro hq
            rw [hq] at hmem'
            exact hknotin hmem'
          have hne2 : ¬ k = e'.1 := fun hq => hne hq.symm
          simp [evLookup, hne2])
        (List.nodup_cons.mp hkeysnodup).2
        (by
          intro k' hk'ks hk'n
          rw [evLookup_append] at hk'n
          cases h64 : evLookup done k' with
          | some w => rw [h64] at hk'n; cases hk'n
          | none =>
            rw [h64] at hk'n
            have hk'ne : k' ≠ k := by
              intro hq
              subst hq
              simp [evLookup] at hk'n
            have := hcover k' hk'ks h64
            simp at this
            rcases this with hq | hq
            · exact absurd hq hk'ne
            · simpa using hq)
        (by simp) hwrite
      refine ⟨h', ?_, hslot'⟩
      unfold runResolutions
      rw [hstep]
      simp only [Bind.bind, Except.bind, hrun]
      rw [List.append_assoc]
      rfl

/-! ## Claims C1, C2, C3 -/

theorem all_snd_map (events : List (String × Bool)) :
    events.all (fun e => e.2) = (events.map Prod.snd).all id := by
  induction events with
  | nil => rfl
  | cons e tl ih => simp [List.all_cons, ih]

/-- C1 (confirmed): a write-transaction with N ≥ 1 dependent leaves, receiving
its per-leaf outcomes in any order, emits on its result channel exactly once —
only at the last leaf's report — the logical AND of the leaf outcomes; at that
moment the mirror cache is written at the transaction's target key `keys[0]`
with the transaction's original value, and the slot is then removed.  Every
proper prefix of the outcome sequence emits nothing and leaves the cache
untouched. -/
theorem c1_write_transaction_lifecycle
    (wh : WHandler) (cache : JVal) (tid : Nat) (t : WriteTxn) (ks : List String)
    (events : List (String × Bool)) (tgt : String) (krest : List String) (cw : JVal)
    (hslot : slotGet wh.transactions tid = some t)
    (hkeys : t.keys = tgt :: krest)
    (hdeps : t.dependentKeys = ks.map (fun k => (k, none)))
    (hnodup : ks.Nodup)
    (hne : events ≠ [])
    (hperm : (events.map Prod.fst).Perm ks)
    (hwrite : writeEntry cache tgt t.value = .ok cw) :
    (∃ h', runResolutions wh (some cache) tid events =
        .ok (h', some cw, [(events.map Prod.snd).all id]) ∧
      slotGet h'.transactions tid = none)
    ∧ (∀ p q, events = p ++ q → q ≠ [] →
        ∃ hp, runResolutions wh (some cache) tid p = .ok (hp, some cache, [])) := by
  have hdeps' : t.dependentKeys = depsAfter ks [] := by rw [hdeps]; rfl
  have hkeysnodup : (events.map Prod.fst).Nodup := hperm.nodup_iff.mpr hnodup
  constructor
  · obtain ⟨h', hrun, hslot'⟩ := runResolutions_spec events wh cache tid t ks [] tgt krest cw
      hslot hkeys hdeps' hnodup
      (fun e he => ⟨hperm.mem_iff.mp (List.mem_map_of_mem Prod.fst he), rfl⟩)
      hkeysnodup
      (fun k hk _ => hperm.mem_iff.mpr hk)
      hne hwrite
    refine ⟨h', ?_, hslot'⟩
    rw [hrun]
    have hval : ks.all (fun k => (evLookup ([] ++ events) k).getD true) =
        (events.map Prod.snd).all id := by
      rw [List.nil_append, allLookup_eq_allSnd ks events hperm hnodup]
      exact all_snd_map events
    rw [hval]
  · intro p q hpq hq
    subst hpq
    obtain ⟨e₀, q', rfl⟩ : ∃ e₀ q', q = e₀ :: q' := by
      cases q with
      | nil => exact absurd rfl hq
      | cons a b => exact ⟨a, b, rfl⟩
    have hnodx : (p.map Prod.fst ++ (e₀ :: q').map Prod.fst).Nodup := by
      rw [← List.map_append]; exact hkeysnodup
    obtain ⟨hpn, hqn, hdisj⟩ := List.nodup_append.mp hnodx
    have hnotp : e₀.1 ∉ p.map Prod.fst := fun hmem => hdisj hmem (by simp)
    have hmiss : ∃ k ∈ ks, evLookup ([] ++ p) k = none := by
      refine ⟨e₀.1, ?_, ?_⟩
      · exact hperm.mem_iff.mp (by rw [List.map_append]; exact List.mem_append_right _ (by simp))
      · rw [List.nil_append]
        exact evLookup_eq_none_of_not_mem p e₀.1 hnotp
    obtain ⟨hp', hrun, _⟩ := runResolutions_silent p wh cache tid t ks [] hslot hdeps' hnodup
      (fun e he => ⟨hperm.mem_iff.mp
        (by rw [List.map_append]
            exact List.mem_append_left _ (List.mem_map_of_mem Prod.fst he)), rfl⟩)
      hpn hmiss
    exact ⟨hp', hrun⟩

/-- Witness for C1: two leaves resolving out of order with a mixed outcome. -/
theorem c1_witness :
    (slotGet [some (⟨["t"], .prim (.jint 9), 0, [("a", none), ("b", none)]⟩ : WriteTxn)] 0 =
      some (⟨["t"], .prim (.jint 9), 0, [("a", none), ("b", none)]⟩ : WriteTxn))
    ∧ ((["a", "b"] : List String).Nodup)
    ∧ (([("b", true), ("a", false)] : List (String × Bool)).map Prod.fst).Perm ["a", "b"]
    ∧ (writeEntry (JVal.obj []) "t" (.prim (.jint 9)) = .ok (JVal.obj [("t", .prim (.jint 9))]))
    ∧ ((∃ h', runResolutions ⟨[some ⟨["t"], .prim (.jint 9), 0, [("a", none), ("b", none)]⟩], 1, []⟩
          (some (JVal.obj [])) 0 [("b", true), ("a", false)] =
          .ok (h', some (JVal.obj [("t", .prim (.jint 9))]),
            [([("b", true), ("a", false)].map Prod.snd).all id]) ∧
        slotGet h'.transactions 0 = none)
      ∧ (∀ p q, ([("b", true), ("a", false)] : List (String × Bool)) = p ++ q → q ≠ [] →
          ∃ hp, runResolutions ⟨[some ⟨["t"], .prim (.jint 9), 0, [("a", none), ("b", none)]⟩], 1, []⟩
            (some (JVal.obj [])) 0 p = .ok (hp, some (JVal.obj []), []))) :=
  ⟨rfl, by decide, by decide, rfl,
    c1_write_transaction_lifecycle
      ⟨[some ⟨["t"], .prim (.jint 9), 0, [("a", none), ("b", none)]⟩], 1, []⟩
      (JVal.obj []) 0 ⟨["t"], .prim (.jint 9), 0, [("a", none), ("b", none)]⟩
      ["a", "b"] [("b", true), ("a", false)] "t" [] (JVal.obj [("t", .prim (.jint 9))])
      rfl rfl rfl (by decide) (by decide) (by decide) rfl⟩

/-- C2 (confirmed): with a write-transaction pending on key `k` with value
`v`, `get(k, USE_WRITE)` resolves synchronously with `v` — the subject emits
and completes immediately and nothing is pushed onto the read stack, so no
network round trip is awaited; `get(k, WAIT_FOR_WRITE)` does not resolve at
creation (it only subscribes to the pending write transaction), and once the
write reports: on success the callback delivers the then-current cache value
at `k` and completes, on failure the subject errors first, so the terminal
outcome is a failure, never a stale value. -/
theorem c2_cache_mode_use_write_wait_for_write
    (cache : JVal) (wh : WHandler) (k : String) (v : JVal) (t : WriteTxn)
    (depth : Option Int)
    (hload : ∃ b, hmiKeyLoaded cache [k] = .ok b)
    (hwriting : wh.isCurrentlyWriting [k] = true)
    (hfind : wh.getTransactionFromKey [k] = some t)
    (hval : t.value = v) :
    (initUseWrite cache wh [k] depth = .ok ([.nextE (.single (some v)), .completeE], []))
    ∧ (initWaitForWrite cache wh [k] depth = .ok (.waitingOn t))
    ∧ (∀ cache' : JVal,
        subjectOutcome (waitForWriteCallback cache' [k] true) =
          .done [.single (getCopy cache' k)]
        ∧ subjectOutcome (waitForWriteCallback cache' [k] false) =
          .failed []
            "Error while trying to wait for write. The Write Transaction was not successful") := by
  obtain ⟨b, hload⟩ := hload
  refine ⟨?_, ?_, fun cache' => ⟨rfl, rfl⟩⟩
  · unfold initUseWrite
    simp [hload, hwriting, hfind, hval, Bind.bind, Except.bind]
  · unfold initWaitForWrite
    simp [hload, hwriting, hfind, Bind.bind, Except.bind]

/-- Witness for C2 at a concrete pending write. -/
theorem c2_witness :
    (∃ b, hmiKeyLoaded (JVal.obj []) ["DB.a"] = .ok b)
    ∧ ((⟨[some ⟨["DB.a"], .prim (.jint 5), 0, [("DB.a", none)]⟩], 1, []⟩ : WHandler).isCurrentlyWriting
        ["DB.a"] = true)
    ∧ ((⟨[some ⟨["DB.a"], .prim (.jint 5), 0, [("DB.a", none)]⟩], 1, []⟩ : WHandler).getTransactionFromKey
        ["DB.a"] = some ⟨["DB.a"], .prim (.jint 5), 0, [("DB.a", none)]⟩)
    ∧ ((initUseWrite (JVal.obj []) ⟨[some ⟨["DB.a"], .prim (.jint 5), 0, [("DB.a", none)]⟩], 1, []⟩
          ["DB.a"] none = .ok ([.nextE (.single (some (.prim (.jint 5)))), .completeE], []))
      ∧ (initWaitForWrite (JVal.obj []) ⟨[some ⟨["DB.a"], .prim (.jint 5), 0, [("DB.a", none)]⟩], 1, []⟩
          ["DB.a"] none = .ok (.waitingOn ⟨["DB.a"], .prim (.jint 5), 0, [("DB.a", none)]⟩))
      ∧ (∀ cache' : JVal,
          subjectOutcome (waitForWriteCallback cache' ["DB.a"] true) =
            .done [.single (getCopy cache' "DB.a")]
          ∧ subjectOutcome (waitForWriteCallback cache' ["DB.a"] false) =
            .failed []
              "Error while trying to wait for write. The Write Transaction was not successful")) :=
  ⟨⟨false, rfl⟩, rfl, rfl,
    c2_cache_mode_use_write_wait_for_write (JVal.obj [])
      ⟨[some ⟨["DB.a"], .prim (.jint 5), 0, [("DB.a", none)]⟩], 1, []⟩
      "DB.a" (.prim (.jint 5)) ⟨["DB.a"], .prim (.jint 5), 0, [("DB.a", none)]⟩ none
      ⟨false, rfl⟩ rfl rfl rfl⟩

/-- C3 counterexample: the claim says multi-key `USE_WRITE` requests raise a
synchronous error *regardless of cache contents and pending writes*; but with
both keys cached and no pending write-transaction, the call falls back to
`USE_CACHE` and resolves from the cache without any error. -/
theorem c3_counterexample :
    initUseWrite (JVal.obj [("DB", .obj [("a", .prim (.jint 1)), ("b", .prim (.jint 2))])])
      ⟨[], 0, []⟩ ["DB.a", "DB.b"] none =
      .ok ([.nextE (.concat [("a", some (.prim (.jint 1))), ("b", some (.prim (.jint 2)))]),
        .completeE], []) := rfl

/-- C3 (amended): a multi-key `USE_WRITE` / `WAIT_FOR_WRITE` request raises a
synchronous error exactly in the branch where a write-transaction is
currently pending on one of the requested keys; with no pending write the
call behaves like `USE_CACHE` instead (no multi-key rejection). -/
theorem c3_multikey_rejection_requires_pending_write
    (cache : JVal) (wh : WHandler) (keys : List String) (depth : Option Int)
    (hlen : 1 < keys.length)
    (hwriting : wh.isCurrentlyWriting keys = true)
    (hload : ∃ b, hmiKeyLoaded cache keys = .ok b) :
    (initUseWrite cache wh keys depth =
      .error "Getting multiple vars with Cache-Method USE_WRITE is currently not supported due to unwanted behaviour, please use another Cache-Method")
    ∧ (initWaitForWrite cache wh keys depth =
      .error "Getting multiple vars with Cache-Method WAIT_FOR_WRITE is currently not supported due to unwanted behaviour, please use another Cache-Method") := by
  obtain ⟨b, hload⟩ := hload
  constructor
  · unfold initUseWrite
    simp [hload, hwriting, hlen, Bind.bind, Except.bind]
  · unfold initWaitForWrite
    simp [hload, hwriting, hlen, Bind.bind, Except.bind]

/-- Witness for the amended C3. -/
theorem c3_witness :
    (1 < (["a", "b"] : List String).length)
    ∧ ((⟨[some ⟨["a"], .prim (.jint 3), 0, [("a", none)]⟩], 1, []⟩ : WHandler).isCurrentlyWriting
        ["a", "b"] = true)
    ∧ ((initUseWrite (JVal.obj []) ⟨[some ⟨["a"], .prim (.jint 3), 0, [("a", none)]⟩], 1, []⟩
          ["a", "b"] none =
        .error "Getting multiple vars with Cache-Method USE_WRITE is currently not supported due to unwanted behaviour, please use another Cache-Method")
      ∧ (initWaitForWrite (JVal.obj []) ⟨[some ⟨["a"], .prim (.jint 3), 0, [("a", none)]⟩], 1, []⟩
          ["a", "b"] none =
        .error "Getting multiple vars with Cache-Method WAIT_FOR_WRITE is currently not supported due to unwanted behaviour, please use another Cache-Method")) :=
  ⟨by decide, rfl,
    c3_multikey_rejection_requires_pending_write (JVal.obj [])
      ⟨[some ⟨["a"], .prim (.jint 3), 0, [("a", none)]⟩], 1, []⟩
      ["a", "b"] none (by decide) rfl ⟨false, rfl⟩⟩

/-! ## Claim C6 -/

theorem trieIndex_of_readStep (cur : JVal) (k : Seg) (x : JVal)
    (h : readStep cur k = some x) : trieIndex cur k = some x := by
  cases cur with
  | prim p => simp [readStep] at h
  | arr es fs => cases k <;> simpa [readStep, trieIndex] using h
  | obj fs =>
    cases k with
    | num n => simp [readStep] at h
    | str s => simpa [readStep, trieIndex] using h

theorem notifyGo_leaf_count (segs : List Seg) :
    ∀ (t : Trie) (cur : JVal) (acc : List Seg) (v : JVal),
    t.has segs = true → PresentPath cur segs v →
    ((notifyGo t cur acc segs).filter (fun e => e.1 = acc ++ segs)).length = 1 := by
  induction segs with
  | nil => intro t cur acc v _ hp; exact absurd hp (by simp [PresentPath])
  | cons k rest ih =>
    intro t cur acc v hhas hp
    obtain ⟨s, c, ch⟩ := t
    cases hcl : childLookup ch k with
    | none => simp [Trie.has, hcl] at hhas
    | some child =>
      obtain ⟨s', c', ch'⟩ := child
      cases rest with
      | nil =>
        have hk : readStep cur k = some v := hp
        have hti := trieIndex_of_readStep cur k v hk
        have hs' : s' = true := by simpa [Trie.has, hcl] using hhas
        subst hs'
        simp [notifyGo, hcl, hti]
      | cons r rs =>
        obtain ⟨cval, hstep, hpp⟩ := hp
        have hti := trieIndex_of_readStep cur k cval hstep
        have hhas' : (Trie.node s' c' ch').has (r :: rs) = true := by
          simpa [Trie.has, hcl] using hhas
        have ihh := ih (.node s' c' ch') cval (acc ++ [k]) v hhas' hpp
        have hne : ¬ ((acc ++ [k], cval).1 = acc ++ (k :: r :: rs)) := by
          intro hq
          simp only [] at hq
          have := List.append_cancel_left hq
          cases this
        have hpath2 : (acc ++ [k]) ++ (r :: rs) = acc ++ (k :: r :: rs) := by simp
        rw [notifyGo]
        simp only [hcl, hti]
        rw [List.filter_append, List.length_append]
        cases s' with
        | true =>
          have hfilt : ([((acc ++ [k], cval))].filter
              (fun e => decide (e.1 = acc ++ (k :: r :: rs)))).length = 0 := by
            simp [List.filter, hne]
          rw [if_pos rfl, hfilt, ← hpath2]
          simpa using ihh
        | false =>
          rw [if_neg (by simp)]
          simp only [List.filter_nil, List.length_nil, Nat.zero_add]
          rw [← hpath2]
          exact ihh

/-- C6 (confirmed): dispatching two consecutive read results with the same
scalar value for a leaf notifies a cache-aware subscriber at that leaf
exactly once — the second, value-unchanged dispatch produces no cache-aware
emission at all — while the ignore-cache trie is notified on both
dispatches; the equality comparison is a single check in the dispatcher
between the value copied before the write and the reference after it. -/
theorem c6_no_redundant_notification
    (cache : JVal) (key : String) (v : JPrim) (tA tI : Trie)
    (hpath : ValidPath cache (parseFlattenedKey key) = true)
    (hold : getReference cache key ≠ some (.prim v))
    (hA : tA.has (parseFlattenedKey key) = true)
    (hI : tI.has (parseFlattenedKey key) = true) :
    ∃ cache₁ a₁ i₁ cache₂ a₂ i₂,
      handleRPCResponseRead cache key (.prim v) tA tI = .ok (cache₁, a₁, i₁) ∧
      handleRPCResponseRead cache₁ key (.prim v) tA tI = .ok (cache₂, a₂, i₂) ∧
      leafEmitCount a₁ (parseFlattenedKey key) = 1 ∧
      a₂ = [] ∧
      leafEmitCount i₁ (parseFlattenedKey key) = 1 ∧
      leafEmitCount i₂ (parseFlattenedKey key) = 1 := by
  obtain ⟨cache₁, hw₁, hpp₁⟩ :=
    writeEntryAux_present (parseFlattenedKey key) cache (.prim v) hpath
  have href₁ : getReference cache₁ key = some (.prim v) :=
    getReferenceAux_of_presentPath cache₁ _ _ hpp₁
  have hvp₁ : ValidPath cache₁ (parseFlattenedKey key) = true :=
    validPath_of_presentPath cache₁ _ _ hpp₁
  obtain ⟨cache₂, hw₂, hpp₂⟩ :=
    writeEntryAux_present (parseFlattenedKey key) cache₁ (.prim v) hvp₁
  have href₂ : getReference cache₂ key = some (.prim v) :=
    getReferenceAux_of_presentPath cache₂ _ _ hpp₂
  have hgate₁ : strictNeqCloneRef (getCopy cache key) (getReference cache₁ key) = true := by
    rw [href₁]
    unfold getCopy
    cases ho : getReference cache key with
    | none => rfl
    | some u =>
      cases u with
      | prim q =>
        have hq : q ≠ v := fun hqq => hold (by rw [ho, hqq])
        simp [deepClone, strictNeqCloneRef, hq]
      | arr es fs => simp [deepClone, strictNeqCloneRef]
      | obj fs => simp [deepClone, strictNeqCloneRef]
  have hgate₂ : strictNeqCloneRef (getCopy cache₁ key) (getReference cache₂ key) = false := by
    rw [href₂]
    unfold getCopy
    rw [href₁]
    simp [deepClone, strictNeqCloneRef]
  refine ⟨cache₁, notifyEmits tA cache₁ (parseFlattenedKey key),
    notifyEmits tI cache₁ (parseFlattenedKey key), cache₂, [],
    notifyEmits tI cache₂ (parseFlattenedKey key), ?_, ?_, ?_, rfl, ?_, ?_⟩
  · unfold handleRPCResponseRead writeEntry
    simp only [hw₁, Bind.bind, Except.bind, hgate₁, if_true]
  · unfold handleRPCResponseRead writeEntry
    simp only [hw₂, Bind.bind, Except.bind, hgate₂, Bool.false_eq_true, if_false]
  · unfold leafEmitCount notifyEmits
    simpa using notifyGo_leaf_count (parseFlattenedKey key) tA cache₁ [] (.prim v) hA hpp₁
  · unfold leafEmitCount notifyEmits
    simpa using notifyGo_leaf_count (parseFlattenedKey key) tI cache₁ [] (.prim v) hI hpp₁
  · unfold leafEmitCount notifyEmits
    simpa using notifyGo_leaf_count (parseFlattenedKey key) tI cache₂ [] (.prim v) hI hpp₂

/-- Witness for C6 on cache `{DB:{a:0}}`, key `"DB.a"`, value `5`. -/
theorem c6_witness :
    (ValidPath (JVal.obj [("DB", .obj [("a", .prim (.jint 0))])])
      (parseFlattenedKey "DB.a") = true)
    ∧ ((Trie.insert (.node false 0 []) (parseFlattenedKey "DB.a")).has
        (parseFlattenedKey "DB.a") = true)
    ∧ (∃ cache₁ a₁ i₁ cache₂ a₂ i₂,
        handleRPCResponseRead (JVal.obj [("DB", .obj [("a", .prim (.jint 0))])]) "DB.a"
          (.prim (.jint 5)) (Trie.insert (.node false 0 []) (parseFlattenedKey "DB.a"))
          (Trie.insert (.node false 0 []) (parseFlattenedKey "DB.a")) = .ok (cache₁, a₁, i₁) ∧
        handleRPCResponseRead cache₁ "DB.a"
          (.prim (.jint 5)) (Trie.insert (.node false 0 []) (parseFlattenedKey "DB.a"))
          (Trie.insert (.node false 0 []) (parseFlattenedKey "DB.a")) = .ok (cache₂, a₂, i₂) ∧
        leafEmitCount a₁ (parseFlattenedKey "DB.a") = 1 ∧
        a₂ = [] ∧
        leafEmitCount i₁ (parseFlattenedKey "DB.a") = 1 ∧
        leafEmitCount i₂ (parseFlattenedKey "DB.a") = 1) := by
  refine ⟨by decide, rfl, ?_⟩
  refine c6_no_redundant_notification _ "DB.a" (.jint 5) _ _ (by decide) ?_ rfl rfl
  intro h
  rw [show getReference (JVal.obj [("DB", .obj [("a", .prim (.jint 0))])]) "DB.a" =
      some (JVal.prim (.jint 0)) from rfl] at h
  simp at h

/-! ## Claim C7 -/

theorem string_eq_of_data_eq {a b : String} (h : a.data = b.data) : a = b := by
  cases a
  cases b
  exact congrArg String.mk h

theorem sameLength_prefix_eq (key a b : String)
    (ha : startsWithJ key a = true) (hb : startsWithJ key b = true)
    (hlen : a.length = b.length) : a = b := by
  unfold startsWithJ at ha hb
  have ha' : a.data <+: key.data := List.isPrefixOf_iff_prefix.mp ha
  have hb' : b.data <+: key.data := List.isPrefixOf_iff_prefix.mp hb
  have h1 : a.data = key.data.take a.data.length := List.prefix_iff_eq_take.mp ha'
  have h2 : b.data = key.data.take b.data.length := List.prefix_iff_eq_take.mp hb'
  have hlen' : a.data.length = b.data.length := hlen
  apply string_eq_of_data_eq
  rw [h1, h2, hlen']

theorem longestPrefixFold_go (key p : String) (hpref : startsWithJ key p = true)
    (hpne : p ≠ "") :
    ∀ (m : List (String × String)) (acc : String),
    (startsWithJ key acc = true ∨ acc = "") →
    acc.length ≤ p.length →
    (p ∈ m.map Prod.fst ∨ acc = p) →
    (∀ q ∈ m.map Prod.fst, startsWithJ key q = true → q.length ≤ p.length) →
    m.foldl
      (fun acc e =>
        if startsWithJ key e.1 && decide (e.1.length > acc.length) then e.1 else acc)
      acc = p := by
  intro m
  induction m with
  | nil =>
    intro acc _ _ hmem _
    rcases hmem with hmem | rfl
    · simp at hmem
    · rfl
  | cons e rest ih =>
    intro acc hacc hlen hmem hmax
    obtain ⟨q, r'⟩ := e
    rw [List.foldl_cons]
    have hmax' : ∀ q' ∈ rest.map Prod.fst, startsWithJ key q' = true →
        q'.length ≤ p.length :=
      fun q' hq' hpq' => hmax q' (List.mem_cons_of_mem _ hq') hpq'
    by_cases hsel : (startsWithJ key q && decide (q.length > acc.length)) = true
    · simp only [hsel, if_true]
      have hqpref : startsWithJ key q = true := by
        cases hq : startsWithJ key q
        · rw [hq] at hsel; simp at hsel
        · rfl
      have hqlen : q.length ≤ p.length := hmax q (by simp) hqpref
      rcases hmem with hmem | rfl
      · have hmem2 : p ∈ q :: rest.map Prod.fst := by simpa using hmem
        rcases List.mem_cons.mp hmem2 with hpq | hmem'
        · subst hpq
          exact ih p (Or.inl hqpref) le_rfl (Or.inr rfl) hmax'
        · by_cases hqp : q.length = p.length
          · have hqeq : q = p := sameLength_prefix_eq key q p hqpref hpref hqp
            exact ih q (Or.inl hqpref) hqlen (Or.inr hqeq) hmax'
          · exact ih q (Or.inl hqpref) hqlen (Or.inl hmem') hmax'
      · exfalso
        have hgt : q.length > acc.length := by
          cases hd : decide (q.length > acc.length)
          · rw [hd] at hsel; simp at hsel
          · exact of_decide_eq_true hd
        omega
    · simp only [hsel, if_false]
      rcases hmem with hmem | rfl
      · have hmem2 : p ∈ q :: rest.map Prod.fst := by simpa using hmem
        rcases List.mem_cons.mp hmem2 with hpq | hmem'
        · subst hpq
          have hnp : ¬ (p.length > acc.length) := by
            intro hgt
            exact hsel (by simp [hpref, hgt])
          have haclen : acc.length = p.length := le_antisymm hlen (by omega)
          rcases hacc with haccp | rfl
          · have haq : acc = p := sameLength_prefix_eq key acc p haccp hpref haclen
            exact ih acc (Or.inl haccp) hlen (Or.inr haq) hmax'
          · exfalso
            apply hpne
            apply string_eq_of_data_eq
            have h0 : p.data.length = 0 := haclen.symm
            simpa using List.length_eq_zero.mp h0
        · exact ih acc hacc hlen (Or.inl hmem') hmax'
      · exact ih acc hacc hlen (Or.inr rfl) hmax'

theorem wrapNumericSeg_data_num {t : String} (h : segIsNumeric t = true) :
    (wrapNumericSeg t).data = '[' :: (t.data ++ [']']) := by
  simp [wrapNumericSeg, h, String.data_append]

theorem wrapNumericSeg_data_str {t : String} (h : segIsNumeric t = false) :
    (wrapNumericSeg t).data = t.data := by
  simp [wrapNumericSeg, h]

theorem rdb_dot_bracket (rest : List Char) :
    replaceDotBracket ('.' :: '[' :: rest) = '[' :: replaceDotBracket rest := rfl

theorem rdb_dot_cons (c : Char) (cs : List Char) (hc : c ≠ '[') :
    replaceDotBracket ('.' :: c :: cs) = '.' :: replaceDotBracket (c :: cs) := by
  rw [replaceDotBracket.eq_def]
  split
  · simp_all
  · rename_i heq; injection heq with h1 h2; injection h2 with h3 _; exact absurd h3 hc
  · rename_i hne heq; injection heq with h1 h2; rw [h1, h2]

theorem rdb_append_no_dot (a xs : List Char) (h : '.' ∉ a) :
    replaceDotBracket (a ++ xs) = a ++ replaceDotBracket xs := by
  induction a with
  | nil => rfl
  | cons c a' ih =>
    have hc : c ≠ '.' := fun hcc => h (hcc ▸ List.mem_cons_self c a')
    have h' : '.' ∉ a' := fun hm => h (List.mem_cons_of_mem c hm)
    rw [List.cons_append, replaceDotBracket.eq_def]
    split
    · rename_i heq; exact absurd heq (by simp)
    · rename_i heq; injection heq with h1 _; exact absurd h1 hc
    · rename_i hne heq
      injection heq with h1 h2
      rw [h1, ← h2, ih h']
      simp

theorem rdb_no_dot (xs : List Char) (h : '.' ∉ xs) : replaceDotBracket xs = xs := by
  have h2 := rdb_append_no_dot xs [] h
  have h0 : replaceDotBracket ([] : List Char) = [] := rfl
  rw [List.append_nil, h0, List.append_nil] at h2
  exact h2

theorem splitDotAux_no_dot (cs : List Char) :
    ∀ acc : List Char, '.' ∉ acc →
      ∀ s ∈ splitDotAux cs acc, '.' ∉ s := by
  induction cs with
  | nil =>
    intro acc hacc s hs
    simp [splitDotAux] at hs
    subst hs
    simpa using hacc
  | cons c rest ih =>
    intro acc hacc s hs
    simp only [splitDotAux] at hs
    by_cases hc : c = '.'
    · rw [if_pos hc] at hs
      rcases List.mem_cons.mp hs with rfl | hs'
      · simpa using hacc
      · exact ih [] (by simp) s hs'
    · rw [if_neg hc] at hs
      exact ih (c :: acc) (by simp [hacc]; exact fun h => hc h.symm) s hs

theorem wns_no_dot {s : String} (h : '.' ∉ s.data) : '.' ∉ (wrapNumericSeg s).data := by
  by_cases hn : segIsNumeric s = true
  · rw [wrapNumericSeg_data_num hn]
    simp [h]
  · simp [wrapNumericSeg, hn, h]

theorem rdb_join : ∀ (ts : List String) (t : String),
    '.' ∉ t.data → (segIsNumeric t = false → t.data.head? ≠ some '[') →
    (∀ u ∈ ts, '.' ∉ u.data ∧ (segIsNumeric u = false → u.data.head? ≠ some '[')) →
    replaceDotBracket ('.' :: joinDotChars ((t :: ts).map (fun u => (wrapNumericSeg u).data)))
      = (if segIsNumeric t then '[' :: (t.data ++ [']']) else '.' :: t.data) ++
        (ts.map (fun u =>
          if segIsNumeric u then '[' :: (u.data ++ [']']) else '.' :: u.data)).join := by
  intro ts
  induction ts with
  | nil =>
    intro t htd htb _
    simp only [List.map_cons, List.map_nil, joinDotChars, List.join]
    by_cases hn : segIsNumeric t = true
    · rw [wrapNumericSeg_data_num hn, rdb_dot_bracket,
        rdb_no_dot _ (by simp [htd]), hn]
      simp
    · have hn' : segIsNumeric t = false := by simp [hn]
      rw [hn', wrapNumericSeg_data_str hn']
      simp only [Bool.false_eq_true, if_false]
      cases hd : t.data with
      | nil => simp [replaceDotBracket]
      | cons c cs =>
        have hc : c ≠ '[' := by
          intro hcc
          exact htb hn' (by rw [hd, hcc]; rfl)
        rw [rdb_dot_cons c cs hc, rdb_no_dot _ (by rw [← hd]; exact htd)]
        simp
  | cons u ts' ih =>
    intro t htd htb hts
    have hu := hts u (List.mem_cons_self u ts')
    have hts' : ∀ v ∈ ts', '.' ∉ v.data ∧ (segIsNumeric v = false → v.data.head? ≠ some '[') :=
      fun v hv => hts v (List.mem_cons_of_mem u hv)
    have hihu := ih u hu.1 hu.2 hts'
    simp only [List.map_cons] at hihu ⊢
    rw [show joinDotChars ((wrapNumericSeg t).data :: (wrapNumericSeg u).data ::
        List.map (fun v => (wrapNumericSeg v).data) ts')
      = (wrapNumericSeg t).data ++ '.' :: joinDotChars ((wrapNumericSeg u).data ::
        List.map (fun v => (wrapNumericSeg v).data) ts') from rfl]
    by_cases hn : segIsNumeric t = true
    · rw [wrapNumericSeg_data_num hn]
      rw [show ('.' :: (('[' :: (t.data ++ [']'])) ++ '.' :: joinDotChars
          ((wrapNumericSeg u).data :: List.map (fun v => (wrapNumericSeg v).data) ts')))
        = '.' :: '[' :: ((t.data ++ [']']) ++ '.' :: joinDotChars
          ((wrapNumericSeg u).data :: List.map (fun v => (wrapNumericSeg v).data) ts')) from rfl]
      rw [rdb_dot_bracket, rdb_append_no_dot _ _ (by simp [htd]), hihu, hn]
      simp [List.join]
    · have hn' : segIsNumeric t = false := by simp [hn]
      rw [hn', wrapNumericSeg_data_str hn']
      simp only [Bool.false_eq_true, if_false]
      cases hd : t.data with
      | nil =>
        simp only [List.nil_append]
        rw [rdb_dot_cons '.' _ (by decide), hihu]
        simp [List.join]
      | cons c cs =>
        have hc : c ≠ '[' := by
          intro hcc
          exact htb hn' (by rw [hd, hcc]; rfl)
        rw [show ((c :: cs) ++ '.' :: joinDotChars ((wrapNumericSeg u).data ::
            List.map (fun v => (wrapNumericSeg v).data) ts'))
          = c :: (cs ++ '.' :: joinDotChars ((wrapNumericSeg u).data ::
            List.map (fun v => (wrapNumericSeg v).data) ts')) from rfl]
        rw [rdb_dot_cons c _ hc]
        rw [show (c :: (cs ++ '.' :: joinDotChars ((wrapNumericSeg u).data ::
            List.map (fun v => (wrapNumericSeg v).data) ts')))
          = ((c :: cs) ++ '.' :: joinDotChars ((wrapNumericSeg u).data ::
            List.map (fun v => (wrapNumericSeg v).data) ts')) from rfl]
        rw [rdb_append_no_dot _ _ (by rw [← hd]; exact htd), hihu]
        simp [List.join]

theorem rdb_head (s : String) (rest : List String)
    (hs : '.' ∉ s.data)
    (hrest : ∀ u ∈ rest, '.' ∉ u.data ∧ (segIsNumeric u = false → u.data.head? ≠ some '[')) :
    replaceDotBracket (joinDotChars ((s :: rest).map (fun u => (wrapNumericSeg u).data)))
      = (wrapNumericSeg s).data ++
        (rest.map (fun t =>
          if segIsNumeric t then '[' :: (t.data ++ [']']) else '.' :: t.data)).join := by
  cases rest with
  | nil =>
    simp only [List.map_cons, List.map_nil, joinDotChars, List.join]
    rw [rdb_no_dot _ (wns_no_dot hs)]
    simp
  | cons u ts =>
    have hu := hrest u (List.mem_cons_self u ts)
    have hts : ∀ v ∈ ts, '.' ∉ v.data ∧ (segIsNumeric v = false → v.data.head? ≠ some '[') :=
      fun v hv => hrest v (List.mem_cons_of_mem u hv)
    simp only [List.map_cons]
    rw [show joinDotChars ((wrapNumericSeg s).data :: (wrapNumericSeg u).data ::
        List.map (fun v => (wrapNumericSeg v).data) ts)
      = (wrapNumericSeg s).data ++ '.' :: joinDotChars ((wrapNumericSeg u).data ::
        List.map (fun v => (wrapNumericSeg v).data) ts) from rfl]
    rw [rdb_append_no_dot _ _ (wns_no_dot hs)]
    have hj := rdb_join ts u hu.1 hu.2 hts
    simp only [List.map_cons] at hj
    rw [hj]
    simp [List.join]

theorem splitDotAux_ne_nil (cs : List Char) : ∀ acc, splitDotAux cs acc ≠ [] := by
  induction cs with
  | nil => intro acc; simp [splitDotAux]
  | cons c rest ih =>
    intro acc
    simp only [splitDotAux]
    split
    · simp
    · exact ih (c :: acc)

theorem splitDotS_ne_nil (s : String) : splitDotS s ≠ [] := by
  simp only [splitDotS]
  intro h
  exact splitDotAux_ne_nil s.data [] (List.map_eq_nil_iff.mp h)

theorem splitDotS_no_dot (str : String) : ∀ t ∈ splitDotS str, '.' ∉ t.data := by
  intro t ht
  simp only [splitDotS, List.mem_map] at ht
  obtain ⟨cs, hcs, rfl⟩ := ht
  exact splitDotAux_no_dot str.data [] (by simp) cs hcs

theorem assocStr_eq_of_mem :
    ∀ (m : List (String × String)) (p r : String),
    (p, r) ∈ m → (m.map Prod.fst).Nodup → assocStr m p = some r := by
  intro m
  induction m with
  | nil => intro p r h _; simp at h
  | cons e rest ih =>
    intro p r hmem hnodup
    obtain ⟨k, v⟩ := e
    have hnd : k ∉ rest.map Prod.fst ∧ (rest.map Prod.fst).Nodup :=
      List.nodup_cons.mp hnodup
    rcases List.mem_cons.mp hmem with heq | hmem'
    · injection heq with h1 h2
      subst h1; subst h2
      simp [assocStr]
    · have hk : k ≠ p := by
        intro hkp
        subst hkp
        exact hnd.1 (by simpa using List.mem_map_of_mem Prod.fst hmem')
      rw [assocStr, if_neg hk]
      exact ih p r hmem' hnd.2

theorem longestPrefixFold_eq (key p : String) (m : List (String × String))
    (hpref : startsWithJ key p = true) (hpne : p ≠ "")
    (hmem : p ∈ m.map Prod.fst)
    (hmax : ∀ q ∈ m.map Prod.fst, startsWithJ key q = true → q.length ≤ p.length) :
    longestPrefixFold m key = p := by
  have h := longestPrefixFold_go key p hpref hpne m ""
    (Or.inr rfl) (Nat.zero_le _) (Or.inl hmem) hmax
  exact h

/-- C7: key translation.  When the substitution map contains a binding
`(p, r)` whose key `p` is the (unique-by-Nodup) longest map key prefixing the
logical key, `insertPrefixMapping` substitutes exactly that prefix:
the result is `r` followed by the remainder of the key.  And on the
substituted key, `hmiKeyToPlcKey` (wrap numeric segments, join with dots,
collapse `".["` globally) coincides with the spec-modelled translation that
rewrites every numeric segment `.N` into bracket notation `[N]` and keeps
every other segment with its leading dot — provided no non-numeric segment
of the substituted key starts with a literal `'['` (standard dot notation). -/
theorem c7_key_translation
    (m : List (String × String)) (key p r : String)
    (hmem : (p, r) ∈ m) (hpref : startsWithJ key p = true) (hpne : p ≠ "")
    (hmax : ∀ q ∈ m.map Prod.fst, startsWithJ key q = true → q.length ≤ p.length)
    (hnodup : (m.map Prod.fst).Nodup)
    (hseg : ∀ t ∈ splitDotS (insertPrefixMapping m key),
        segIsNumeric t = false → t.data.head? ≠ some '[') :
    insertPrefixMapping m key = r ++ String.mk (key.data.drop p.length) ∧
    hmiKeyToPlcKey m key = specPlcKey m key := by
  have hfold : longestPrefixFold m key = p :=
    longestPrefixFold_eq key p m hpref hpne
      (List.mem_map_of_mem Prod.fst hmem) hmax
  constructor
  · rw [insertPrefixMapping, hfold]
    rw [if_neg hpne, assocStr_eq_of_mem m p r hmem hnodup]
  · obtain ⟨s, rest, hsplit⟩ :=
      List.exists_cons_of_ne_nil (splitDotS_ne_nil (insertPrefixMapping m key))
    have hnodot := splitDotS_no_dot (insertPrefixMapping m key)
    rw [hsplit] at hnodot
    have hseg' := hseg
    rw [hsplit] at hseg'
    have hrest : ∀ u ∈ rest, '.' ∉ u.data ∧
        (segIsNumeric u = false → u.data.head? ≠ some '[') :=
      fun u hu => ⟨hnodot u (List.mem_cons_of_mem s hu),
        hseg' u (List.mem_cons_of_mem s hu)⟩
    rw [hmiKeyToPlcKey, specPlcKey, hsplit]
    rw [rdb_head s rest (hnodot s (List.mem_cons_self s rest)) hrest]

/-- Witness for C7: with mappings `{"a": "X", "a.b": "Y"}`, key `"a.b.c"`
uses the longest match `"Y"`, giving `"Y.c"`; and
`"someObject.somearray.0"` translates to `"someObject.somearray[0]"`. -/
theorem c7_witness :
    insertPrefixMapping [("a", "X"), ("a.b", "Y")] "a.b.c" = "Y.c" ∧
    hmiKeyToPlcKey [("a", "X"), ("a.b", "Y")] "a.b.c" =
      specPlcKey [("a", "X"), ("a.b", "Y")] "a.b.c" ∧
    hmiKeyToPlcKey [] "someObject.somearray.0" = "someObject.somearray[0]" := by
  have h := c7_key_translation [("a", "X"), ("a.b", "Y")] "a.b.c" "a.b" "Y"
    (by decide) (by decide) (by decide) (by decide) (by decide) (by decide)
  refine ⟨?_, h.2, ?_⟩
  · rw [h.1]; rfl
  · rfl

/-- C8: slow-mode transition.  An empty collected batch gets exactly one
liveness ping added and enters slow mode (a non-empty batch is left unchanged
and leaves slow mode); with clamping enabled the recalculated delay in slow
mode is at least `slowMinDelay`; and a `get` issued in slow mode leaves slow
mode, resets the delay to `minDelay`, and replaces the pending poll timeout
with an immediate one. -/
theorem c8_slow_mode_transition (cfg : PollingConfig) (batch : List RPCReq)
    (timeDiff d : ℚ) (st : SchedulerState)
    (hempty : batch = []) (hclamp : cfg.clamp = true)
    (hslow : st.slowPollingMode = true) :
    collectStaticRPCMethodObjects batch = ([pingReq], true) ∧
    (collectStaticRPCMethodObjects batch).1.count pingReq = 1 ∧
    (∀ b : List RPCReq, b ≠ [] → collectStaticRPCMethodObjects b = (b, false)) ∧
    cfg.slowMinDelay ≤ recalculatePollingDelay cfg true timeDiff d ∧
    getSlowModeEffect cfg st =
      { slowPollingMode := false, pollingDelay := cfg.minDelay,
        pollTimeoutDelay := some 0 } := by
  subst hempty
  refine ⟨rfl, rfl, ?_, ?_, ?_⟩
  · intro b hb
    rw [collectStaticRPCMethodObjects, if_neg (by simpa using hb)]
  · rw [recalculatePollingDelay]
    simp only [hclamp, if_true]
    rw [clampPollingDelay, if_pos rfl]
    exact le_max_left _ _
  · rw [getSlowModeEffect, if_pos hslow]

/-- Witness for C8 at a concrete configuration and state. -/
theorem c8_witness :
    collectStaticRPCMethodObjects [] = ([pingReq], true) ∧
    (collectStaticRPCMethodObjects []).1.count pingReq = 1 ∧
    (∀ b : List RPCReq, b ≠ [] → collectStaticRPCMethodObjects b = (b, false)) ∧
    (1000 : ℚ) ≤ recalculatePollingDelay
      { minDelay := 10, slowMinDelay := 1000, emaAlpha := 1/2, clamp := true }
      true 100 10 ∧
    getSlowModeEffect
      { minDelay := 10, slowMinDelay := 1000, emaAlpha := 1/2, clamp := true }
      { slowPollingMode := true, pollingDelay := 5000, pollTimeoutDelay := some 5000 } =
      { slowPollingMode := false, pollingDelay := 10, pollTimeoutDelay := some 0 } :=
  c8_slow_mode_transition
    { minDelay := 10, slowMinDelay := 1000, emaAlpha := 1/2, clamp := true }
    [] 100 10
    { slowPollingMode := true, pollingDelay := 5000, pollTimeoutDelay := some 5000 }
    rfl rfl rfl

mutual
theorem ccExpand_id : ∀ (wk : String) (v : JVal) (depth : Option Int),
    holeFree v = true → (ccExpand wk v depth).1 = v
  | wk, .prim p, depth, _ => by
    rw [ccExpand]
    split <;> rfl
  | wk, .arr es fs, depth, h => by
    rw [holeFree] at h
    have h1 : holeFreeElems es = true := by
      cases hq : holeFreeElems es <;> simp [hq] at h ⊢
    rw [ccExpand]
    split
    · rfl
    · show JVal.arr (ccElems wk 0 es (depthDec depth)).1 fs = JVal.arr es fs
      rw [ccElems_id wk 0 es (depthDec depth) h1]
  | wk, .obj fs, depth, h => by
    rw [holeFree] at h
    rw [ccExpand]
    split
    · rfl
    · show JVal.obj (ccFields wk fs (depthDec depth)).1 = JVal.obj fs
      rw [ccFields_id wk fs (depthDec depth) h]

theorem ccElems_id : ∀ (wk : String) (i : Nat) (es : List (Option JVal))
    (depth : Option Int),
    holeFreeElems es = true → (ccElems wk i es depth).1 = es
  | _, _, [], _, _ => rfl
  | wk, i, none :: rest, depth, h => by
    rw [holeFreeElems] at h; exact absurd h (by simp)
  | wk, i, some v :: rest, depth, h => by
    rw [holeFreeElems] at h
    have h1 : holeFree v = true := by
      cases hq : holeFree v <;> simp [hq] at h ⊢
    have h2 : holeFreeElems rest = true := by
      cases hq : holeFreeElems rest <;> simp [hq] at h ⊢
    rw [ccElems]
    show some (ccExpand (wk ++ "." ++ toString i) v depth).1 ::
        (ccElems wk (i + 1) rest depth).1 = some v :: rest
    rw [ccExpand_id (wk ++ "." ++ toString i) v depth h1,
      ccElems_id wk (i + 1) rest depth h2]

theorem ccFields_id : ∀ (wk : String) (fs : List (String × JVal))
    (depth : Option Int),
    holeFreeFields fs = true → (ccFields wk fs depth).1 = fs
  | _, [], _, _ => rfl
  | wk, (k, v) :: rest, depth, h => by
    rw [holeFreeFields] at h
    have h1 : holeFree v = true := by
      cases hq : holeFree v <;> simp [hq] at h ⊢
    have h2 : holeFreeFields rest = true := by
      cases hq : holeFreeFields rest <;> simp [hq] at h ⊢
    rw [ccFields]
    show (k, (ccExpand (wk ++ "." ++ k) v depth).1) ::
        (ccFields wk rest depth).1 = (k, v) :: rest
    rw [ccExpand_id (wk ++ "." ++ k) v depth h1,
      ccFields_id wk rest depth h2]
end

/-- Counterexample to C9 as stated: leaf expansion is NOT read-only on the
schema.  On a schema whose array has an `undefined` slot, the expansion of
`DB` returns the schema with that slot overwritten by the empty-string
placeholder (`ref[i] = ""` mutates the configured structure in place): the
input schema has a hole, the returned one does not. -/
theorem c9_counterexample :
    ccExpand "DB" (JVal.obj [("x", JVal.arr [some (.prim (.jint 1)), none] [])]) none
      = (JVal.obj [("x", JVal.arr
          [some (.prim (.jint 1)), some (.prim (.jstr ""))] [])],
         ["DB.x.0", "DB.x.1"]) ∧
    holeFree (JVal.obj [("x", JVal.arr [some (.prim (.jint 1)), none] [])]) = false ∧
    holeFree (ccExpand "DB"
      (JVal.obj [("x", JVal.arr [some (.prim (.jint 1)), none] [])]) none).1 = true :=
  ⟨rfl, rfl, rfl⟩

/-- C9 (amended): the schema is read-only for leaf expansion as long as it
has no `undefined` array slots — on hole-free schema subtrees,
`_collectChildrenKeys` returns the schema tree unchanged for every key and
every depth. -/
theorem c9_schema_readonly_when_hole_free (wk : String) (schema : JVal)
    (depth : Option Int) (h : holeFree schema = true) :
    (ccExpand wk schema depth).1 = schema :=
  ccExpand_id wk schema depth h

/-- Witness for C9's amended theorem at a concrete hole-free schema. -/
theorem c9_witness :
    holeFree (JVal.obj [("x", JVal.arr [some (.prim (.jint 1))] []),
      ("y", JVal.prim (.jbool true))]) = true ∧
    (ccExpand "DB" (JVal.obj [("x", JVal.arr [some (.prim (.jint 1))] []),
      ("y", JVal.prim (.jbool true))]) (some 5)).1
      = JVal.obj [("x", JVal.arr [some (.prim (.jint 1))] []),
        ("y", JVal.prim (.jbool true))] :=
  ⟨rfl, c9_schema_readonly_when_hole_free "DB"
    (JVal.obj [("x", JVal.arr [some (.prim (.jint 1))] []),
      ("y", JVal.prim (.jbool true))]) (some 5) rfl⟩

/-- Counterexample to C10 as stated: with every subscribed key present in the
cache, `subscribe` with `ignoreCache` falsy does NOT always emit the initial
event — when two keys share their trailing identifier the concatenation
throws inside the observable producer (the collision loop raises whenever a
further segment exists to disambiguate with), so no event is emitted. -/
theorem c10_counterexample :
    hmiKeyLoaded
      (JVal.obj [("x", .obj [("y", .prim (.jint 1))]),
        ("z", .obj [("y", .prim (.jint 2))])])
      ["x.y", "z.y"] = .ok true ∧
    ∃ msg, subscribeInitialEvents
      (JVal.obj [("x", .obj [("y", .prim (.jint 1))]),
        ("z", .obj [("y", .prim (.jint 2))])])
      ["x.y", "z.y"] false = .error msg :=
  ⟨rfl,
    "You asked for multiple keys with the same identifier in the get-function of the plc connector, this results in key conflicts",
    rfl⟩

/-- C10 (amended): `subscribe(keys, ignoreCache)` emits no initial event when
`ignoreCache` is truthy or when some key is missing from the cache; when
every key is loaded it emits exactly one synchronous event with `changedKey`
`""` — the copied cached value for a single key, the concatenated object for
several keys — PROVIDED the concatenation does not throw (distinct trailing
identifiers). -/
theorem c10_subscribe_initial_emission (cache : JVal) (keys : List String)
    (k : String) (co : List (String × Option JVal))
    (hloaded : hmiKeyLoaded cache keys = .ok true)
    (hconcat : createConcatenatedObject cache keys = .ok co) :
    subscribeInitialEvents cache keys true = .ok [] ∧
    (∀ ks : List String, hmiKeyLoaded cache ks = .ok false →
      subscribeInitialEvents cache ks false = .ok []) ∧
    (hmiKeyLoaded cache [k] = .ok true →
      subscribeInitialEvents cache [k] false =
        .ok [{ value := .single (getCopy cache k), changedKey := "" }]) ∧
    (keys.length ≠ 1 →
      subscribeInitialEvents cache keys false =
        .ok [{ value := .concat co, changedKey := "" }]) := by
  refine ⟨rfl, ?_, ?_, ?_⟩
  · intro ks h
    simp only [subscribeInitialEvents, h]
    rw [if_neg (by simp)]
  · intro h1
    simp only [subscribeInitialEvents, h1, concatenateCacheFromKeys]
    rw [if_neg (by simp)]
    rw [if_pos (by simp)]
    rfl
  · intro hne
    simp only [subscribeInitialEvents, hloaded, concatenateCacheFromKeys]
    rw [if_neg (by simp)]
    rw [if_neg hne]
    simp only [hconcat]

/-- Witness for C10's amended theorem: cache `{a: {x: 1, y: 2}}`; no event
with `ignoreCache` or a missing key; one event with the copy for `a.x`; one
event with the concatenated `{x, y}` object for both keys. -/
theorem c10_witness :
    subscribeInitialEvents
      (JVal.obj [("a", .obj [("x", .prim (.jint 1)), ("y", .prim (.jint 2))])])
      ["a.x", "a.y"] true = .ok [] ∧
    subscribeInitialEvents
      (JVal.obj [("a", .obj [("x", .prim (.jint 1)), ("y", .prim (.jint 2))])])
      ["missing"] false = .ok [] ∧
    subscribeInitialEvents
      (JVal.obj [("a", .obj [("x", .prim (.jint 1)), ("y", .prim (.jint 2))])])
      ["a.x"] false =
      .ok [{ value := .single (some (.prim (.jint 1))), changedKey := "" }] ∧
    subscribeInitialEvents
      (JVal.obj [("a", .obj [("x", .prim (.jint 1)), ("y", .prim (.jint 2))])])
      ["a.x", "a.y"] false =
      .ok [{ value := .concat [("x", some (.prim (.jint 1))),
        ("y", some (.prim (.jint 2)))], changedKey := "" }] := by
  have h := c10_subscribe_initial_emission
    (JVal.obj [("a", .obj [("x", .prim (.jint 1)), ("y", .prim (.jint 2))])])
    ["a.x", "a.y"] "a.x"
    [("x", some (.prim (.jint 1))), ("y", some (.prim (.jint 2)))]
    rfl rfl
  refine ⟨h.1, h.2.1 ["missing"] rfl, ?_, h.2.2.2 (by decide)⟩
  have h3 := h.2.2.1 rfl
  rw [show getCopy
      (JVal.obj [("a", .obj [("x", .prim (.jint 1)), ("y", .prim (.jint 2))])])
      "a.x" = some (.prim (.jint 1)) from rfl] at h3
  exact h3

end S7
